import Mathlib

/-!
Shallow embedding of the mutable-transaction (MTX) and coin-selection core of
bronzeage-node (`lib/primitives/mtx.js`).

Scripts, witnesses, keys and signatures live in `lib/script/script.js`, which is
not part of the analysed sources; those leaves are modelled from the spec, as
documented on each definition.  Everything that `mtx.js` itself does —
`scriptInput`, `scriptVector`, `signInput`, `signVector`, `subtractFee`, `fund`
and the whole `CoinSelector` state machine — is translated faithfully below,
with source line references in the doc comments.
-/

set_option linter.unusedVariables false

/-- Modelled from the spec: the shapes of previous-output scripts that
`mtx.js` pattern-matches on via `Script.isPubkey`, `isPubkeyhash`,
`isMultisig`, `isScripthash`, `isWitnessScripthash`, `isWitnessPubkeyhash`
(the script interpreter is an external collaborator).  A multisig script
`OP_m key1 .. keyN OP_n OP_CHECKMULTISIG` is carried as its threshold `m`,
its ordered key list (as read by the `prev.get(i)` loop) and its encoded
key count `n` (as read by `prev.getSmall(prev.length - 2)`).  Hashes and
keys are abstract identifiers. -/
inductive PrevScript where
  | pubkey : Nat → PrevScript
  | pubkeyhash : Nat → PrevScript
  | multisig : Nat → List Nat → Nat → PrevScript
  | scripthash : Nat → PrevScript
  | witnessScripthash : Nat → PrevScript
  | witnessPubkeyhash : Nat → PrevScript
  | other : PrevScript
deriving Repr, DecidableEq

/-- Modelled from the spec: one stack item of a script or witness vector.
`smallOp v` is a small-value opcode (OP_0 is `smallOp 0`), `key`/`sig` are
pushed public-key/DER-signature data (`Script.isSignature` recognises only
the latter), and `raw s` is a pushed serialized redeem script (`toRaw`). -/
inductive Item where
  | smallOp : Nat → Item
  | key : Nat → Item
  | sig : Nat → Item
  | raw : PrevScript → Item
deriving Repr, DecidableEq

/-- Modelled from the spec: `Script.prototype.getSmall` on a single item —
the numeric value of a small opcode, `-1` for data pushes. -/
def Item.small : Item → Int
  | .smallOp v => (v : Int)
  | _ => -1

/-- Modelled from the spec: `Script.isSignature` — a structural test that an
item is a DER signature push. -/
def Item.isSignature : Item → Bool
  | .sig _ => true
  | _ => false

/-- Modelled from the spec: `Script.isKey` — a structural test that an item
is a public-key push. -/
def Item.isKey : Item → Bool
  | .key _ => true
  | _ => false

/-- Modelled from the spec: `vector.getSmall(i)` — `-1` when out of range or
not a small opcode. -/
def getSmall (v : List Item) (i : Nat) : Int :=
  match v[i]? with
  | some it => it.small
  | none => -1

/-- Modelled from the spec: `Script.isSignature(vector.get(i))` (false when
the slot is out of range). -/
def isSigAt (v : List Item) (i : Nat) : Bool :=
  match v[i]? with
  | some it => it.isSignature
  | none => false

/-- Modelled from the spec: `Script.isKey(vector.get(i))`. -/
def isKeyAt (v : List Item) (i : Nat) : Bool :=
  match v[i]? with
  | some it => it.isKey
  | none => false

/-- Modelled from the spec: `vector.set(i, item)` — in-place slot update; a
JavaScript array assignment one past the end appends (the code only ever
writes in range or at the next free slot). -/
def vset (v : List Item) (i : Nat) (x : Item) : List Item :=
  if i < v.length then v.set i x else v ++ [x]

/-- Modelled from the spec: `vector.getRedeem()` — the redeem script carried
by the final push of a templated vector. -/
def vecRedeem (v : List Item) : Option PrevScript :=
  match v.getLast? with
  | some (Item.raw s) => some s
  | _ => none

/-- Modelled from the spec: `util.indexOf(keys, ring.publicKey)`, returning
the first index of the key (the source uses the sentinel `-1` for absence,
modelled here as `none`). -/
def idxOfNat : List Nat → Nat → Option Nat
  | [], _ => none
  | x :: xs, k => if x = k then some 0 else (idxOfNat xs k).map (· + 1)

/-- Signature count of a vector: the `for (i = 1; i < vector.length; i++)`
loop of `signVector` (mtx.js lines 656-660). -/
def countSigs (v : List Item) : Nat :=
  (v.drop 1).countP Item.isSignature

/-- Empty-slot compaction of `signVector` (mtx.js lines 698-702): the loop
walks `i` from `vector.length - 1` down to `1` and removes every slot whose
`getSmall` value is `0`; walking downward makes the removals independent, so
the result keeps slot 0 and filters the rest. -/
def removeEmptySlots : List Item → List Item
  | [] => []
  | x :: rest => x :: rest.filter (fun it => it.small != 0)

/-- Modelled from the spec: the slice of `KeyRing` that `mtx.js` consumes —
`publicKey`, `getKeyHash()` and the redeem-script lookup `getRedeem(hash)`. -/
structure KeyRing where
  publicKey : Nat
  keyHash : Nat
  redeems : Nat → Option PrevScript

/-- Coin: a previously created output — value, creation height (`-1` when
unconfirmed/unknown), coinbase flag and locking script (mtx.js data model). -/
structure Coin where
  value : Int
  height : Int
  coinbase : Bool
  script : PrevScript
deriving Repr, DecidableEq

/-- Input slice relevant to templating/signing: legacy script and witness
vectors (sequence and outpoint play no role in the verified operations). -/
structure TxInput where
  script : List Item
  witness : List Item
deriving Repr, DecidableEq

/-- Output slice relevant to funding: value, its dust threshold (modelled
from the spec as a per-script-type attribute, standing for
`getDustThreshold()` / `isDust(MIN_RELAY)`) and its address hash
(`getHash()`, `none` for unaddressable scripts). -/
structure TxOutput where
  value : Int
  dust : Int
  hash : Option Nat
deriving Repr, DecidableEq

/-- Multisig skeleton construction of `scriptVector` (mtx.js lines 488-495):
`vector.set(0, OP_0)` then `n` placeholder slots `vector.set(i + 1, OP_0)`. -/
def msTemplate (vector : List Item) (n : Nat) : List Item :=
  (List.range n).foldl (fun v i => vset v (i + 1) (Item.smallOp 0))
    (vset vector 0 (Item.smallOp 0))

/-- MTX.prototype.scriptVector (mtx.js lines 456-501): build the unsigned
skeleton for one vector from the previous script.  Returns the new vector
and the success flag; failure paths never mutate. -/
def scriptVector (prev : PrevScript) (vector : List Item) (ring : KeyRing) :
    List Item × Bool :=
  match prev with
  | .pubkey k =>
    if k ≠ ring.publicKey then (vector, false)
    else (vset vector 0 (Item.smallOp 0), true)
  | .pubkeyhash h =>
    if h ≠ ring.keyHash then (vector, false)
    else (vset (vset vector 0 (Item.smallOp 0)) 1 (Item.key ring.publicKey), true)
  | .multisig _ keys n =>
    if ring.publicKey ∈ keys then (msTemplate vector n, true) else (vector, false)
  | _ => (vector, false)

/-- MTX.prototype.scriptInput (mtx.js lines 334-445): early-return when the
input already has content, then dispatch on the previous script (P2SH with
nested witness programs, bare witness programs, plain scripts), building via
`scriptVector` and pushing redeem scripts.  `compile()` re-serializes in the
source and is the identity on this item-level model. -/
def scriptInput (input : TxInput) (coin : Coin) (ring : KeyRing) : TxInput × Bool :=
  if input.script.length ≠ 0 ∨ input.witness.length ≠ 0 then (input, true)
  else
    match coin.script with
    | .scripthash h =>
      match ring.redeems h with
      | none => (input, false)
      | some redeem =>
        match redeem with
        | .witnessScripthash h2 =>
          match ring.redeems h2 with
          | none => (input, false)
          | some prev2 =>
            match scriptVector prev2 input.witness ring with
            | (w, false) => ({ input with witness := w }, false)
            | (w, true) =>
              ({ input with witness := w ++ [Item.raw prev2], script := [Item.raw redeem] }, true)
        | .witnessPubkeyhash _ =>
          match scriptVector (.pubkeyhash ring.keyHash) input.witness ring with
          | (w, false) => ({ input with witness := w }, false)
          | (w, true) => ({ input with witness := w, script := [Item.raw redeem] }, true)
        | .pubkey _ | .pubkeyhash _ | .multisig _ _ _ | .scripthash _ | .other =>
          match scriptVector redeem input.script ring with
          | (sc, false) => ({ input with script := sc }, false)
          | (sc, true) => ({ input with script := sc ++ [Item.raw redeem] }, true)
    | .witnessScripthash h =>
      match ring.redeems h with
      | none => (input, false)
      | some redeem =>
        match scriptVector redeem input.witness ring with
        | (w, false) => ({ input with witness := w }, false)
        | (w, true) => ({ input with witness := w ++ [Item.raw redeem] }, true)
    | .witnessPubkeyhash h =>
      match scriptVector (.pubkeyhash h) input.witness ring with
      | (w, b) => ({ input with witness := w }, b)
    | p =>
      match scriptVector p input.script ring with
      | (sc, b) => ({ input with script := sc }, b)

/-- Multisig branch of MTX.prototype.signVector (mtx.js lines 634-722).
Returns `none` where the source throws (untemplated marker slot, or the
final length sanity assertion), otherwise the mutated vector and the boolean
result.  The steps, in source order: marker check, excess-slot check,
signature count, already-finalized short-circuit, padding to `n + 1` slots,
key lookup, slot write, compaction and final checks. -/
def multisigFill (m : Nat) (keys : List Nat) (n : Nat) (vector : List Item)
    (s : Item) (pub : Nat) : Option (List Item × Bool) :=
  if getSmall vector 0 ≠ 0 then none
  else if (vector.length : Int) - 1 > (n : Int) then some (vector, false)
  else
    let total := countSigs vector
    if total = m ∧ (vector.length : Int) - 1 = (m : Int) then some (vector, true)
    else
      let v1 := vector ++ List.replicate (n + 1 - vector.length) (Item.smallOp 0)
      match idxOfNat keys pub with
      | none => some (v1, false)
      | some ki =>
        let kidx := ki + 1
        let st : List Item × Nat :=
          if kidx < v1.length ∧ total < m then
            (if getSmall v1 kidx = 0 then (vset v1 kidx s, total + 1) else (v1, total))
          else (v1, total)
        if m ≤ st.2 then
          let v3 := removeEmptySlots st.1
          let v4 := v3.take (v3.length - (st.2 - m))
          if (v4.length : Int) - 1 = (m : Int) then some (v4, true) else none
        else some (st.1, false)

/-- MTX.prototype.signVector (mtx.js lines 592-725): place a produced
signature into the correct slot of a templated vector.  `none` models a
thrown `Error`, and `compile()` is the identity on this model. -/
def signVector (prev : PrevScript) (vector : List Item) (s : Item)
    (ring : KeyRing) : Option (List Item × Bool) :=
  match prev with
  | .pubkey k =>
    if ring.publicKey ≠ k then some (vector, false)
    else if isSigAt vector 0 then some (vector, true)
    else if getSmall vector 0 ≠ 0 then none
    else some (vset vector 0 s, true)
  | .pubkeyhash h =>
    if ring.keyHash ≠ h then some (vector, false)
    else if isSigAt vector 0 then some (vector, true)
    else if ¬ isKeyAt vector 1 then none
    else some (vset vector 0 s, true)
  | .multisig m keys n => multisigFill m keys n vector s ring.publicKey
  | _ => some (vector, false)

/-- Empty ring lookup used by plain signer rings. -/
def noRedeems : Nat → Option PrevScript := fun _ => none

/-- Ring of the signer holding key `k` (key hash irrelevant to multisig). -/
def signerRing (k : Nat) : KeyRing := ⟨k, 0, noRedeems⟩

/-- Apply `signVector` for a bare `m`-of-`n` multisig previous script once
per key of `ks`, in order, each signer passing their own signature
(`sigOf k` abstracts `MTX.signature` for key `k`); stops with `none` if any
application throws. -/
def fillAll (m n : Nat) (keys : List Nat) (sigOf : Nat → Nat) :
    List Nat → List Item → Option (List Item)
  | [], v => some v
  | k :: ks, v =>
    match signVector (.multisig m keys n) v (Item.sig (sigOf k)) (signerRing k) with
    | none => none
    | some (v', _) => fillAll m n keys sigOf ks v'

/-- Intermediate multisig vector state: the marker plus one slot per script
key, holding that key's signature when the key is in `S` and an OP_0
placeholder otherwise.  Used to characterise the fill loop. -/
def stateOf (keys : List Nat) (sigOf : Nat → Nat) (S : List Nat) : List Item :=
  Item.smallOp 0 ::
    keys.map (fun k => if k ∈ S then Item.sig (sigOf k) else Item.smallOp 0)

/-- Final multisig vector after compaction: the marker followed by the
signatures of the keys of `S`, in script-key order. -/
def msFinal (keys : List Nat) (sigOf : Nat → Nat) (S : List Nat) : List Item :=
  Item.smallOp 0 ::
    (keys.filter (fun k => decide (k ∈ S))).map (fun k => Item.sig (sigOf k))

/-- MTX.prototype.signInput (mtx.js lines 525-580), truncated at the call to
`this.signature(index, prev, value, key, type, version)` (line 569): returns
the `(prev, value, version)` triple passed to the digest-and-sign primitive,
or `none` where the source throws `Input has not been templated`.  Note the
source initialises `value = 0` (line 537) and never reassigns it. -/
def signInputSigArgs (input : TxInput) (coin : Coin) : Option (PrevScript × Int × Nat) :=
  let value : Int := 0
  match coin.script with
  | .scripthash _ =>
    match vecRedeem input.script with
    | none => none
    | some r =>
      match r with
      | .witnessScripthash _ =>
        match vecRedeem input.witness with
        | none => none
        | some r2 => some (r2, value, 1)
      | .witnessPubkeyhash h => some (.pubkeyhash h, value, 1)
      | _ => some (r, value, 0)
  | .witnessScripthash _ =>
    match vecRedeem input.witness with
    | none => none
    | some r2 => some (r2, value, 1)
  | .witnessPubkeyhash h => some (.pubkeyhash h, value, 1)
  | p => some (p, value, 0)

/-! Coin selector. -/

/-- Funding errors of `btc/errors.FundingError` as thrown by the selector:
not-enough-funds carries the gathered and required amounts (mtx.js lines
1666-1670), fee-too-high comes from `selectEstimate` (line 1712), and
bad-selection from `init` (line 1537). -/
inductive FundingError where
  | notEnoughFunds : Int → Int → FundingError
  | feeTooHigh : FundingError
  | badSelection : FundingError
deriving Repr, DecidableEq

/-- Selection strategy (`options.selection`): the source switches on the
strings `all` / `random` / `age` with a throwing default, modelled as an
inductive with `unknown` for any other string. -/
inductive Strategy where
  | age
  | random
  | all
  | unknown
deriving Repr, DecidableEq

/-- Fee-subtraction selector passed to `MTX.subtractFee` (mtx.js lines
1125-1139): an output index, a list of address hashes (a single
buffer/string is wrapped into a one-element list by the source), or nothing
in particular (e.g. the boolean `true`), which subtracts from the first
output able to absorb the fee. -/
inductive SubIdx where
  | byIndex : Int → SubIdx
  | byAddrs : List Nat → SubIdx
  | anyOutput : SubIdx
deriving Repr, DecidableEq

/-- CoinSelector policy knobs (mtx.js lines 1424-1433 defaults, lines
1448-1512 `fromOptions`). -/
structure SelOpts where
  selection : Strategy
  shouldSubtract : Bool
  subtractIdx : SubIdx
  height : Int
  confirmations : Int
  hardFee : Int
  rate : Int
  maxFee : Int
  round : Bool
deriving Repr, DecidableEq

/-- CoinSelector working state (mtx.js lines 1412-1440).  The cloned
transaction's input side is represented by `chosen` (its inputs are exactly
the chosen coins after `init` clears them, so `tx.getInputValue()` is the
sum of chosen values), and its output side by the cached `outputValue`. -/
structure Selector where
  opts : SelOpts
  coins : List Coin
  outputValue : Int
  index : Nat
  chosen : List Coin
  change : Int
  fee : Int
deriving Repr, DecidableEq

/-- Modelled from the spec: `constants.tx.COINBASE_MATURITY` — "coinbases
can only be spent 100 blocks or more after they're created" (mtx.js line
310). -/
def COINBASE_MATURITY : Int := 100

/-- Modelled from the spec: `constants.tx.MIN_FEE`, the initial fee fed to
`selectEstimate` and the default rate. -/
def MIN_FEE : Int := 10000

/-- Modelled from the spec: `constants.tx.MAX_FEE`, the protocol maximum fee
cap used by `getFee` and `selectHard`. -/
def MAX_FEE : Int := 1000000

/-- Modelled from the spec: `btcutils.getMinFee(size, rate)` — fee
proportional to size at the given per-kilobyte rate. -/
def getMinFee (size rate : Int) : Int := rate * size / 1000

/-- Modelled from the spec: `btcutils.getRoundFee(size, rate)` — size
rounded up to the next kilobyte before applying the rate. -/
def getRoundFee (size rate : Int) : Int := rate * ((size + 999) / 1000)

/-- Age-sort key of `sortAge` (mtx.js lines 1740-1744): unconfirmed coins
(`height === -1`) sort as the maximum possible height. -/
def ageKey (c : Coin) : Int := if c.height = -1 then 2147483647 else c.height

/-- Insertion step of the age sort. -/
def insertAge (c : Coin) : List Coin → List Coin
  | [] => [c]
  | x :: xs => if ageKey c ≤ ageKey x then c :: x :: xs else x :: insertAge c xs

/-- Stable ascending sort by `ageKey`, modelling `coins.sort(sortAge)`. -/
def sortAgeL (l : List Coin) : List Coin := l.foldr insertAge []

/-- CoinSelector.prototype.isSpendable (mtx.js lines 1569-1600), as a
function of the selector's `height` and `confirmations` options. -/
def spendableB (height confirmations : Int) (c : Coin) : Bool :=
  if height = -1 then true
  else if c.coinbase ∧ c.height = -1 then false
  else if c.coinbase ∧ height + 1 < c.height + COINBASE_MATURITY then false
  else if confirmations > 0 then
    if c.height = -1 then decide (confirmations ≤ 0)
    else if height - c.height < 0 then false
    else decide (confirmations ≤ height - c.height + 1)
  else true

/-- Sum of coin values — `tx.getInputValue()` over a fully resolved view. -/
def sumValues (l : List Coin) : Int := (l.map Coin.value).sum

namespace CoinSelector

/-- CoinSelector.prototype.total (mtx.js lines 1546-1550). -/
def total (s : Selector) : Int :=
  if s.opts.shouldSubtract then s.outputValue else s.outputValue + s.fee

/-- Accumulated input value of the selector's cloned transaction. -/
def inputValue (s : Selector) : Int := sumValues s.chosen

/-- CoinSelector.prototype.isFull (mtx.js lines 1558-1560). -/
def isFull (s : Selector) : Bool := decide (total s ≤ inputValue s)

/-- CoinSelector.prototype.isSpendable applied to this selector's options. -/
def isSpendable (s : Selector) (c : Coin) : Bool :=
  spendableB s.opts.height s.opts.confirmations c

/-- CoinSelector.prototype.getFee (mtx.js lines 1608-1620): size-based fee,
rounded per the `round` option, capped at the protocol `MAX_FEE`. -/
def getFee (s : Selector) (size : Int) : Int :=
  let fee := if s.opts.round then getRoundFee size s.opts.rate
             else getMinFee size s.opts.rate
  if fee > MAX_FEE then MAX_FEE else fee

/-- CoinSelector.prototype.fund (mtx.js lines 1627-1649), with explicit fuel
(the loop consumes at least one candidate per step, so fuel
`coins.length - index` makes `fundGo` total): walk the ordered candidates,
skip unspendable coins, add the rest to the chosen set, and stop once full —
unless the strategy is `all`, which always consumes the whole list. -/
def fundFuel : Nat → Selector → Selector
  | 0, s => s
  | f + 1, s =>
    if h : s.index < s.coins.length then
      let coin := s.coins.get ⟨s.index, h⟩
      let s1 := { s with index := s.index + 1 }
      if isSpendable s coin = false then fundFuel f s1
      else
        let s2 := { s1 with chosen := s1.chosen ++ [coin] }
        if s.opts.selection = .all then fundFuel f s2
        else if isFull s2 then s2
        else fundFuel f s2
    else s

/-- CoinSelector.prototype.fund with its natural fuel. -/
def fundGo (s : Selector) : Selector := fundFuel (s.coins.length - s.index) s

/-- Fee-convergence loop of `selectEstimate` (mtx.js lines 1706-1717), with
fuel: estimate the size (the estimator is an injected/asynchronous
collaborator, taken as the parameter `estSize`), derive the fee, fail if it
exceeds the configured maximum, re-fund if short, and repeat while not full
and candidates remain.  Each continuing iteration advances `index`, so fuel
`coins.length + 1` is always sufficient; on fuel exhaustion the state is
returned as-is and the caller's final full-check still applies. -/
def selLoopFuel (estSize : Selector → Int) : Nat → Selector → Except FundingError Selector
  | 0, s => .ok s
  | f + 1, s =>
    let s1 := { s with fee := getFee s (estSize s) }
    if s1.opts.maxFee > 0 ∧ s1.fee > s1.opts.maxFee then .error .feeTooHigh
    else
      let s2 := if isFull s1 then s1 else fundGo s1
      if isFull s2 ∨ s2.coins.length ≤ s2.index then .ok s2
      else selLoopFuel estSize f s2

/-- CoinSelector.prototype.selectEstimate (mtx.js lines 1684-1718): set the
initial fee, fund once, then run the fee-convergence loop.  The dummy change
output appended for sizing (lines 1695-1702) only influences the abstract
estimator. -/
def selectEstimate (estSize : Selector → Int) (s : Selector) (fee : Int) :
    Except FundingError Selector :=
  let s1 := fundGo { s with fee := fee }
  selLoopFuel estSize (s1.coins.length + 1) s1

/-- CoinSelector.prototype.selectHard (mtx.js lines 1725-1734): take the
caller's fixed fee capped at the protocol `MAX_FEE` and fund once.  The
configured `maxFee` option is not consulted here. -/
def selectHard (s : Selector) (fee : Int) : Selector :=
  fundGo { s with fee := if fee > MAX_FEE then MAX_FEE else fee }

/-- CoinSelector.prototype.init (mtx.js lines 1519-1539): reset working
state and order the private candidate copy by strategy.  `all` and `random`
share the `sortRandom` case — a `Math.random`-driven comparator sort,
modelled by the nondeterminism parameter `shuffle`; `age` sorts ascending by
confirmation height; anything else is a fatal configuration error. -/
def init (shuffle : List Coin → List Coin) (opts : SelOpts) (ov : Int)
    (coins : List Coin) : Except FundingError Selector :=
  match opts.selection with
  | .all => .ok ⟨opts, shuffle coins, ov, 0, [], 0, 0⟩
  | .random => .ok ⟨opts, shuffle coins, ov, 0, [], 0, 0⟩
  | .age => .ok ⟨opts, sortAgeL coins, ov, 0, [], 0, 0⟩
  | .unknown => .error .badSelection

/-- CoinSelector.prototype.select (mtx.js lines 1657-1677): initialise,
run hard or estimated selection, fail with the gathered and required
amounts when still short, otherwise record the change. -/
def select (shuffle : List Coin → List Coin) (estSize : Selector → Int)
    (opts : SelOpts) (ov : Int) (coins : List Coin) :
    Except FundingError Selector :=
  match init shuffle opts ov coins with
  | .error e => .error e
  | .ok s0 =>
    match (if s0.opts.hardFee ≠ -1 then .ok (selectHard s0 s0.opts.hardFee)
           else selectEstimate estSize s0 MIN_FEE) with
    | .error e => .error e
    | .ok s2 =>
      if isFull s2 = false then .error (.notEnoughFunds (inputValue s2) (total s2))
      else .ok { s2 with change := inputValue s2 - total s2 }

end CoinSelector

/-! MTX funding orchestration. -/

/-- MTX-level errors: the plain `Error` throws of `subtractFee` (mtx.js
lines 1144, 1149, 1177), selector `FundingError`s propagated by `fund`, and
`assert` failures. -/
inductive MErr where
  | couldNotSubtract : MErr
  | subIdxMissing : MErr
  | assertFail : MErr
  | funding : FundingError → MErr
deriving Repr, DecidableEq

/-- Funding-relevant view of an MTX: resolved input coins (the view),
outputs and the change index. -/
structure MTXf where
  inputCoins : List Coin
  outputs : List TxOutput
  changeIndex : Int
deriving Repr, DecidableEq

/-- Total output value, `tx.getOutputValue()`. -/
def mtxOutputValue (tx : MTXf) : Int := (tx.outputs.map TxOutput.value).sum

/-- MTX.prototype.getFee over a fully resolved view: input value minus
output value. -/
def mtxFee (tx : MTXf) : Int := sumValues tx.inputCoins - mtxOutputValue tx

/-- Address-filter skip test of the `subtractFee` scan (mtx.js lines
1160-1168): with an address list, outputs without a hash or with a hash
outside the list are skipped; without one nothing is skipped. -/
def subSkip (addrs : Option (List Nat)) (o : TxOutput) : Bool :=
  match addrs with
  | some hs =>
    match o.hash with
    | none => true
    | some h => !(hs.contains h)
  | none => false

/-- Output-scan loop of MTX.prototype.subtractFee (mtx.js lines 1156-1174):
skip outputs outside the address filter, reduce the first one whose value
covers `fee` plus its dust threshold, `none` when the loop falls through. -/
def subLoop (fee : Int) (addrs : Option (List Nat)) :
    List TxOutput → Option (List TxOutput)
  | [] => none
  | o :: rest =>
    if subSkip addrs o then (subLoop fee addrs rest).map (fun r => o :: r)
    else if fee + o.dust ≤ o.value then some ({ o with value := o.value - fee } :: rest)
    else (subLoop fee addrs rest).map (fun r => o :: r)

/-- MTX.prototype.subtractFee (mtx.js lines 1125-1178): numeric index →
direct reduction with existence and `fee + dust` checks; address list or no
selector → first-match scan.  All failures are plain `Error` throws. -/
def subtractFeeFn (outputs : List TxOutput) (fee : Int) (sel : SubIdx) :
    Except MErr (List TxOutput) :=
  match sel with
  | .byIndex i =>
    if h : 0 ≤ i ∧ i.toNat < outputs.length then
      let o := outputs.get ⟨i.toNat, h.2⟩
      if o.value < fee + o.dust then .error .couldNotSubtract
      else .ok (outputs.set i.toNat { o with value := o.value - fee })
    else .error .subIdxMissing
  | .byAddrs hs =>
    match subLoop fee (some hs) outputs with
    | some outs => .ok outs
    | none => .error .couldNotSubtract
  | .anyOutput =>
    match subLoop fee none outputs with
    | some outs => .ok outs
    | none => .error .couldNotSubtract

/-- MTX.prototype.fund (mtx.js lines 1187-1224): require an unfilled
transaction, select coins, add them as inputs, optionally subtract the fee
from existing outputs, append the change output (its script comes from the
mandatory change address, carried here as its dust threshold `cdust` and
address hash `chash`), then drop the change into the fee when it is dust.
The two accounting `assert.equal` checks are modelled as explicit checks
failing with `assertFail`. -/
def mfund (shuffle : List Coin → List Coin) (estSize : Selector → Int)
    (tx : MTXf) (opts : SelOpts) (coins : List Coin) (cdust : Int)
    (chash : Option Nat) : Except MErr (MTXf × Selector) :=
  if tx.inputCoins.length ≠ 0 then .error .assertFail
  else
    match CoinSelector.select shuffle estSize opts (mtxOutputValue tx) coins with
    | .error e => .error (.funding e)
    | .ok sel =>
      let tx1 : MTXf := { tx with inputCoins := tx.inputCoins ++ sel.chosen }
      match (if sel.opts.shouldSubtract
             then subtractFeeFn tx1.outputs sel.fee sel.opts.subtractIdx
             else .ok tx1.outputs) with
      | .error e => .error e
      | .ok outs2 =>
        let ch : TxOutput := { value := sel.change, dust := cdust, hash := chash }
        if ch.value < ch.dust then
          let tx3 : MTXf := { inputCoins := tx1.inputCoins, outputs := outs2, changeIndex := -1 }
          if mtxFee tx3 = sel.fee + sel.change then .ok (tx3, sel)
          else .error .assertFail
        else
          let tx3 : MTXf := { inputCoins := tx1.inputCoins, outputs := outs2 ++ [ch], changeIndex := (outs2.length : Int) }
          if mtxFee tx3 = sel.fee then .ok (tx3, sel)
          else .error .assertFail

/-- Eligibility of an output for the `subtractFee` scan: it passes the
address filter (when one is given) and its value covers the fee plus its
dust threshold. -/
def subEligible (fee : Int) (addrs : Option (List Nat)) (o : TxOutput) : Bool :=
  (match addrs with
   | some hs =>
     (match o.hash with
      | some h => hs.contains h
      | none => false)
   | none => true) && decide (fee + o.dust ≤ o.value)

/-! Helper projections used by concrete counterexample statements. -/

/-- Whether a selection run succeeded. -/
def selOk : Except FundingError Selector → Bool
  | .ok _ => true
  | .error _ => false

/-- Chosen coins of a selection result (empty on failure). -/
def selChosen : Except FundingError Selector → List Coin
  | .ok s => s.chosen
  | .error _ => []

/-- Fee of a selection result (`-1` on failure). -/
def selFee : Except FundingError Selector → Int
  | .ok s => s.fee
  | .error _ => -1

/-- Error of a subtraction result. -/
def subErr : Except MErr (List TxOutput) → Option MErr
  | .ok _ => none
  | .error e => some e

/-- Whether an MTX error is the distinguished `FundingError` kind. -/
def mErrIsFunding : MErr → Bool
  | .funding _ => true
  | _ => false

/-- Identity shuffle (one possible outcome of the randomized sort). -/
def idShuffle : List Coin → List Coin := fun l => l

/-- Reversal shuffle (another possible outcome of the randomized sort). -/
def revShuffle : List Coin → List Coin := fun l => l.reverse

/-- Constant size estimator used in concrete runs. -/
def constSize : Selector → Int := fun _ => 100

/-- Identity signature assignment used in concrete multisig runs. -/
def idSig : Nat → Nat := fun k => k

/-! Theorems.  Claim theorems are marked with their claim id. -/

theorem msTemplate_nil (n : Nat) :
    msTemplate [] n = List.replicate (n + 1) (Item.smallOp 0) := by
  induction n with
  | zero => rfl
  | succ k ih =>
    have hstep : msTemplate [] (k + 1) = vset (msTemplate [] k) (k + 1) (Item.smallOp 0) := by
      simp [msTemplate, List.range_succ]
    rw [hstep, ih]
    simp [vset, List.replicate_succ']

theorem scriptVector_false (p : PrevScript) (v : List Item) (r : KeyRing)
    (w : List Item) (h : scriptVector p v r = (w, false)) : w = v := by
  cases p <;> simp only [scriptVector] at h <;> (try split at h) <;> simp_all

theorem scriptVector_nil_ne (p : PrevScript) (r : KeyRing) (v : List Item)
    (h : scriptVector p [] r = (v, true)) : v ≠ [] := by
  cases p <;> simp only [scriptVector] at h <;> (try split at h) <;>
    simp_all [vset, msTemplate_nil, List.replicate_succ] <;>
    (subst h; simp)

/-- C4: for a bare m-of-n multisig previous script, templating with a signer
whose public key is among the script's keys succeeds and produces one empty
marker slot followed by exactly `n` empty placeholder slots (not `m`), while
a signer whose key is absent gets `false` back (no mutation, no throw). -/
theorem claim4_scriptVector_multisig (m n : Nat) (keys : List Nat) (ring : KeyRing) :
    (ring.publicKey ∈ keys →
      scriptVector (.multisig m keys n) [] ring =
        (List.replicate (n + 1) (Item.smallOp 0), true)) ∧
    (ring.publicKey ∉ keys →
      scriptVector (.multisig m keys n) [] ring = ([], false)) := by
  constructor
  · intro h
    simp [scriptVector, h, msTemplate_nil]
  · intro h
    simp [scriptVector, h]

/-- Witness for C4 at a concrete 2-of-3 script: the member key 1 yields the
four-slot skeleton, the stranger key 9 is refused. -/
theorem claim4_scriptVector_multisig_witness :
    scriptVector (.multisig 2 [1, 2, 3] 3) [] (signerRing 1) =
      (List.replicate 4 (Item.smallOp 0), true) ∧
    scriptVector (.multisig 2 [1, 2, 3] 3) [] (signerRing 9) = ([], false) :=
  ⟨(claim4_scriptVector_multisig 2 3 [1, 2, 3] (signerRing 1)).1 (by decide),
   (claim4_scriptVector_multisig 2 3 [1, 2, 3] (signerRing 9)).2 (by decide)⟩

theorem scriptInput_state (input : TxInput) (coin : Coin) (ring : KeyRing) :
    (scriptInput input coin ring).1 = input ∨
    (scriptInput input coin ring).1.script ≠ [] ∨
    (scriptInput input coin ring).1.witness ≠ [] := by
  by_cases h0 : input.script.length ≠ 0 ∨ input.witness.length ≠ 0
  · left
    rcases h0 with h | h
    · have h' : input.script ≠ [] := fun hl => h (by simp [hl])
      simp [scriptInput, h']
    · have h' : input.witness ≠ [] := fun hl => h (by simp [hl])
      simp [scriptInput, h']
  · push_neg at h0
    obtain ⟨h1, h2⟩ := h0
    obtain ⟨sc, wit⟩ := input
    simp only at h1 h2
    have hs : sc = [] := List.length_eq_zero.mp h1
    have hw : wit = [] := List.length_eq_zero.mp h2
    subst hs; subst hw
    obtain ⟨cv, chh, cb, cs⟩ := coin
    cases cs with
    | scripthash h =>
      rcases hr : ring.redeems h with _ | redeem
      · left; simp [scriptInput, hr]
      · rcases hsv : scriptVector redeem [] ring with ⟨w, b⟩
        cases redeem with
        | witnessScripthash h2 =>
          rcases hr2 : ring.redeems h2 with _ | prev2
          · left; simp [scriptInput, hr, hr2]
          · rcases hsv2 : scriptVector prev2 [] ring with ⟨w2, b2⟩
            cases b2
            · left
              have hw0 : w2 = [] := scriptVector_false _ _ _ _ hsv2
              subst hw0
              simp [scriptInput, hr, hr2, hsv2]
            · right; left
              simp [scriptInput, hr, hr2, hsv2]
        | witnessPubkeyhash h2 =>
          rcases hsv2 : scriptVector (.pubkeyhash ring.keyHash) [] ring with ⟨w2, b2⟩
          cases b2
          · left
            have hw0 : w2 = [] := scriptVector_false _ _ _ _ hsv2
            subst hw0
            simp [scriptInput, hr, hsv2]
          · right; left
            simp [scriptInput, hr, hsv2]
        | pubkey k =>
          cases b
          · left
            have hw0 : w = [] := scriptVector_false _ _ _ _ hsv
            subst hw0
            simp [scriptInput, hr, hsv]
          · right; left
            simp [scriptInput, hr, hsv]
        | pubkeyhash k =>
          cases b
          · left
            have hw0 : w = [] := scriptVector_false _ _ _ _ hsv
            subst hw0
            simp [scriptInput, hr, hsv]
          · right; left
            simp [scriptInput, hr, hsv]
        | multisig m ks n =>
          cases b
          · left
            have hw0 : w = [] := scriptVector_false _ _ _ _ hsv
            subst hw0
            simp [scriptInput, hr, hsv]
          · right; left
            simp [scriptInput, hr, hsv]
        | scripthash k =>
          cases b
          · left
            have hw0 : w = [] := scriptVector_false _ _ _ _ hsv
            subst hw0
            simp [scriptInput, hr, hsv]
          · right; left
            simp [scriptInput, hr, hsv]
        | other =>
          cases b
          · left
            have hw0 : w = [] := scriptVector_false _ _ _ _ hsv
            subst hw0
            simp [scriptInput, hr, hsv]
          · right; left
            simp [scriptInput, hr, hsv]
    | witnessScripthash h =>
      rcases hr : ring.redeems h with _ | redeem
      · left; simp [scriptInput, hr]
      · rcases hsv : scriptVector redeem [] ring with ⟨w, b⟩
        cases b
        · left
          have hw0 : w = [] := scriptVector_false _ _ _ _ hsv
          subst hw0
          simp [scriptInput, hr, hsv]
        · right; right
          simp [scriptInput, hr, hsv]
    | witnessPubkeyhash h =>
      rcases hsv : scriptVector (.pubkeyhash h) [] ring with ⟨w, b⟩
      cases b
      · left
        have hw0 : w = [] := scriptVector_false _ _ _ _ hsv
        subst hw0
        simp [scriptInput, hsv]
      · right; right
        simp only [scriptInput, hsv]
        simpa using scriptVector_nil_ne _ _ _ hsv
    | pubkey k =>
      rcases hsv : scriptVector (.pubkey k) [] ring with ⟨w, b⟩
      cases b
      · left
        have hw0 : w = [] := scriptVector_false _ _ _ _ hsv
        subst hw0
        simp [scriptInput, hsv]
      · right; left
        simp only [scriptInput, hsv]
        simpa using scriptVector_nil_ne _ _ _ hsv
    | pubkeyhash k =>
      rcases hsv : scriptVector (.pubkeyhash k) [] ring with ⟨w, b⟩
      cases b
      · left
        have hw0 : w = [] := scriptVector_false _ _ _ _ hsv
        subst hw0
        simp [scriptInput, hsv]
      · right; left
        simp only [scriptInput, hsv]
        simpa using scriptVector_nil_ne _ _ _ hsv
    | multisig m ks n =>
      rcases hsv : scriptVector (.multisig m ks n) [] ring with ⟨w, b⟩
      cases b
      · left
        have hw0 : w = [] := scriptVector_false _ _ _ _ hsv
        subst hw0
        simp [scriptInput, hsv]
      · right; left
        simp only [scriptInput, hsv]
        simpa using scriptVector_nil_ne _ _ _ hsv
    | other =>
      rcases hsv : scriptVector .other [] ring with ⟨w, b⟩
      cases b
      · left
        have hw0 : w = [] := scriptVector_false _ _ _ _ hsv
        subst hw0
        simp [scriptInput, hsv]
      · right; left
        simp only [scriptInput, hsv]
        simpa using scriptVector_nil_ne _ _ _ hsv

/-- C5: templating an input is idempotent — an input whose script or witness
already has content is returned unchanganged with success, and running
`scriptInput` on the state produced by a first run leaves that state
byte-identical. -/
theorem claim5_scriptInput_idempotent (input : TxInput) (coin : Coin) (ring : KeyRing) :
    (input.script ≠ [] ∨ input.witness ≠ [] →
      scriptInput input coin ring = (input, true)) ∧
    (scriptInput (scriptInput input coin ring).1 coin ring).1 =
      (scriptInput input coin ring).1 := by
  have early : ∀ j : TxInput, j.script ≠ [] ∨ j.witness ≠ [] →
      scriptInput j coin ring = (j, true) := by
    intro j hj
    rcases hj with hj | hj
    · simp [scriptInput, hj]
    · simp [scriptInput, hj]
  refine ⟨early input, ?_⟩
  rcases scriptInput_state input coin ring with he | hne
  · rw [he]; exact he
  · rw [early _ hne]

/-- Witness for C5 at a concrete already-templated input: a second run
returns it untouched with success. -/
theorem claim5_scriptInput_idempotent_witness :
    scriptInput ⟨[Item.smallOp 0], []⟩ ⟨7, 1, false, .pubkey 4⟩ (signerRing 4)
      = (⟨[Item.smallOp 0], []⟩, true) :=
  (claim5_scriptInput_idempotent ⟨[Item.smallOp 0], []⟩ ⟨7, 1, false, .pubkey 4⟩
    (signerRing 4)).1 (by simp)

@[simp] theorem small_smallOp (v : Nat) : (Item.smallOp v).small = (v : Int) := rfl

@[simp] theorem small_key (x : Nat) : (Item.key x).small = -1 := rfl

@[simp] theorem small_sig (x : Nat) : (Item.sig x).small = -1 := rfl

@[simp] theorem small_raw (s : PrevScript) : (Item.raw s).small = -1 := rfl

@[simp] theorem isSignature_smallOp (v : Nat) : (Item.smallOp v).isSignature = false := rfl

@[simp] theorem isSignature_key (x : Nat) : (Item.key x).isSignature = false := rfl

@[simp] theorem isSignature_sig (x : Nat) : (Item.sig x).isSignature = true := rfl

@[simp] theorem isSignature_raw (s : PrevScript) : (Item.raw s).isSignature = false := rfl

theorem nodup_getElem?_eq (l : List Nat) (hnd : l.Nodup) (i j : Nat) (x : Nat)
    (hi : l[i]? = some x) (hj : l[j]? = some x) : i = j := by
  obtain ⟨hlt, _⟩ := List.getElem?_eq_some.mp hi
  exact List.getElem?_inj hlt hnd (hi.trans hj.symm)

theorem idxOfNat_spec (keys : List Nat) (k : Nat) (hk : k ∈ keys) :
    ∃ j, idxOfNat keys k = some j ∧ j < keys.length ∧ keys[j]? = some k := by
  induction keys with
  | nil => simp at hk
  | cons a ks ih =>
    by_cases ha : a = k
    · exact ⟨0, by simp [idxOfNat, ha], by simp, by simp [ha]⟩
    · have hk' : k ∈ ks := by
        rcases List.mem_cons.mp hk with h | h
        · exact absurd h.symm ha
        · exact h
      obtain ⟨j, hj1, hj2, hj3⟩ := ih hk'
      exact ⟨j + 1, by simp [idxOfNat, ha, hj1], by simpa using hj2, by simpa using hj3⟩

theorem filter_mem_length (keys S : List Nat) (hk : keys.Nodup) (hS : S.Nodup)
    (hsub : ∀ x ∈ S, x ∈ keys) :
    (keys.filter (fun x => decide (x ∈ S))).length = S.length := by
  induction keys generalizing S with
  | nil =>
    have hempty : S = [] := by
      cases S with
      | nil => rfl
      | cons a t => exact absurd (hsub a (by simp)) (by simp)
    subst hempty; rfl
  | cons a ks ih =>
    have hhead : a ∉ ks := (List.nodup_cons.mp hk).1
    have htail : ks.Nodup := (List.nodup_cons.mp hk).2
    by_cases ha : a ∈ S
    · have hrw : ks.filter (fun x => decide (x ∈ S)) =
          ks.filter (fun x => decide (x ∈ S.erase a)) := by
        apply List.filter_congr
        intro x hx
        have hxa : x ≠ a := fun he => hhead (he ▸ hx)
        simp [hS.mem_erase_iff, hxa]
      have hsub' : ∀ x ∈ S.erase a, x ∈ ks := by
        intro x hx
        obtain ⟨hxa, hxS⟩ := hS.mem_erase_iff.mp hx
        rcases List.mem_cons.mp (hsub x hxS) with h | h
        · exact absurd h hxa
        · exact h
      have hone : 1 ≤ S.length := List.length_pos.mpr (by rintro rfl; simp at ha)
      rw [List.filter_cons_of_pos (by simpa using ha), List.length_cons, hrw,
        ih (S.erase a) htail (hS.erase a) hsub', List.length_erase_of_mem ha]
      omega
    · have hsub' : ∀ x ∈ S, x ∈ ks := by
        intro x hxS
        rcases List.mem_cons.mp (hsub x hxS) with h | h
        · exact absurd (h ▸ hxS) ha
        · exact h
      rw [List.filter_cons_of_neg (by simpa using ha)]
      exact ih S htail hS hsub'

theorem countP_sig_map (l : List Nat) (g : Nat → Nat) :
    (l.map (fun k => Item.sig (g k))).countP Item.isSignature = l.length := by
  induction l with
  | nil => rfl
  | cons a t ih => simp [List.countP_cons, ih]

theorem countSigs_stateOf (keys S : List Nat) (sigOf : Nat → Nat) :
    countSigs (stateOf keys sigOf S) = (keys.filter (fun x => decide (x ∈ S))).length := by
  simp only [countSigs, stateOf, List.drop_succ_cons, List.drop_zero]
  induction keys with
  | nil => rfl
  | cons a ks ih =>
    by_cases ha : a ∈ S
    · simp [ha, List.countP_cons, ih]
    · simp [ha, List.countP_cons, ih]

theorem filter_map_slots (keys S : List Nat) (sigOf : Nat → Nat) :
    ((keys.map (fun x => if x ∈ S then Item.sig (sigOf x) else Item.smallOp 0)).filter
        (fun it => it.small != 0)) =
      (keys.filter (fun x => decide (x ∈ S))).map (fun x => Item.sig (sigOf x)) := by
  induction keys with
  | nil => rfl
  | cons a ks ih =>
    by_cases ha : a ∈ S
    · simp [ha, ih]
    · simp [ha, ih]

theorem removeEmptySlots_stateOf (keys S : List Nat) (sigOf : Nat → Nat) :
    removeEmptySlots (stateOf keys sigOf S) = msFinal keys sigOf S := by
  simp only [stateOf, removeEmptySlots, msFinal, filter_map_slots]

theorem countSigs_msFinal (keys S : List Nat) (sigOf : Nat → Nat) :
    countSigs (msFinal keys sigOf S) = (keys.filter (fun x => decide (x ∈ S))).length := by
  simp only [countSigs, msFinal, List.drop_succ_cons, List.drop_zero, countP_sig_map]

theorem msFinal_congr (keys T1 T2 : List Nat) (sigOf : Nat → Nat)
    (h : ∀ x, x ∈ T1 ↔ x ∈ T2) : msFinal keys sigOf T1 = msFinal keys sigOf T2 := by
  simp only [msFinal]
  have : keys.filter (fun x => decide (x ∈ T1)) = keys.filter (fun x => decide (x ∈ T2)) := by
    apply List.filter_congr
    intro x hx
    simp [h x]
  rw [this]

theorem stateOf_nil (keys : List Nat) (sigOf : Nat → Nat) :
    stateOf keys sigOf [] = List.replicate (keys.length + 1) (Item.smallOp 0) := by
  simp only [stateOf, List.replicate_succ]
  congr 1
  induction keys with
  | nil => rfl
  | cons a ks ih => simp [List.replicate_succ, ih]

theorem map_set_key (keys S : List Nat) (sigOf : Nat → Nat) (k : Nat) (j : Nat)
    (hknd : keys.Nodup) (hjlt : j < keys.length) (hjget : keys[j]? = some k)
    (hkS : k ∉ S) :
    (keys.map (fun x => if x ∈ S then Item.sig (sigOf x) else Item.smallOp 0)).set j
        (Item.sig (sigOf k)) =
      keys.map (fun x => if x ∈ k :: S then Item.sig (sigOf x) else Item.smallOp 0) := by
  apply List.ext_getElem?
  intro i
  rw [List.getElem?_set]
  by_cases hij : j = i
  · subst hij
    rw [if_pos rfl, if_pos (by simpa using hjlt), List.getElem?_map, hjget]
    simp [List.mem_cons]
  · rw [if_neg hij, List.getElem?_map, List.getElem?_map]
    rcases hx : keys[i]? with _ | x
    · simp
    · have hxk : x ≠ k := fun he =>
        hij (nodup_getElem?_eq keys hknd j i k hjget (he ▸ hx))
      simp only [Option.map_some']
      by_cases hxS : x ∈ S
      · simp [hxS, List.mem_cons, hxk]
      · simp [hxS, List.mem_cons, hxk]

theorem multisigFill_step (m n : Nat) (keys S : List Nat) (sigOf : Nat → Nat) (k : Nat)
    (hknd : keys.Nodup) (hkn : keys.length = n)
    (hS : S.Nodup) (hsub : ∀ x ∈ S, x ∈ keys) (hk : k ∈ keys) (hkS : k ∉ S)
    (hlt : S.length < m) :
    multisigFill m keys n (stateOf keys sigOf S) (Item.sig (sigOf k)) k =
      (if S.length + 1 = m then some (msFinal keys sigOf (k :: S), true)
       else some (stateOf keys sigOf (k :: S), false)) := by
  obtain ⟨j, hj, hjlt, hjget⟩ := idxOfNat_spec keys k hk
  have hlenv : (stateOf keys sigOf S).length = n + 1 := by
    simp [stateOf, hkn]
  have hg0 : getSmall (stateOf keys sigOf S) 0 = 0 := by
    simp [stateOf, getSmall]
  have htot : countSigs (stateOf keys sigOf S) = S.length := by
    rw [countSigs_stateOf, filter_mem_length keys S hknd hS hsub]
  have hj1 : j + 1 < (stateOf keys sigOf S).length := by
    rw [hlenv]; omega
  have hgj : getSmall (stateOf keys sigOf S) (j + 1) = 0 := by
    simp only [stateOf, getSmall, List.getElem?_cons_succ, List.getElem?_map, hjget,
      Option.map_some']
    simp [hkS]
  have hwrite : vset (stateOf keys sigOf S) (j + 1) (Item.sig (sigOf k)) =
      stateOf keys sigOf (k :: S) := by
    rw [vset, if_pos hj1]
    simp only [stateOf, List.set_cons_succ]
    rw [map_set_key keys S sigOf k j hknd hjlt hjget hkS]
  have hc1 : ¬ (getSmall (stateOf keys sigOf S) 0 ≠ 0) := by rw [hg0]; simp
  have hc2 : ¬ (((stateOf keys sigOf S).length : Int) - 1 > (n : Int)) := by
    rw [hlenv]; push_cast; omega
  have hc3 : ¬ (countSigs (stateOf keys sigOf S) = m ∧
      ((stateOf keys sigOf S).length : Int) - 1 = (m : Int)) := by
    rw [htot]
    rintro ⟨h1, -⟩
    omega
  have hpad : stateOf keys sigOf S ++
      List.replicate (n + 1 - (stateOf keys sigOf S).length) (Item.smallOp 0) =
      stateOf keys sigOf S := by
    rw [hlenv]; simp
  have hc4 : j + 1 < (stateOf keys sigOf S).length ∧
      countSigs (stateOf keys sigOf S) < m := ⟨hj1, by rw [htot]; omega⟩
  have hnd' : (k :: S).Nodup := List.nodup_cons.mpr ⟨hkS, hS⟩
  have hsub' : ∀ x ∈ k :: S, x ∈ keys := by
    intro x hx
    rcases List.mem_cons.mp hx with h | h
    · exact h ▸ hk
    · exact hsub x h
  have hfl : (msFinal keys sigOf (k :: S)).length = S.length + 2 := by
    simp only [msFinal, List.length_cons, List.length_map]
    rw [filter_mem_length keys (k :: S) hknd hnd' hsub']
    simp
  simp only [multisigFill, if_neg hc1, if_neg hc2, if_neg hc3, hpad, hj]
  rw [if_pos hc4, if_pos hgj]
  simp only [hwrite, htot]
  by_cases hfin : S.length + 1 = m
  · rw [if_pos (by omega), if_pos hfin]
    rw [removeEmptySlots_stateOf]
    have hz : S.length + 1 - m = 0 := by omega
    rw [hz, Nat.sub_zero, List.take_length]
    rw [if_pos (by rw [hfl]; push_cast; omega)]
  · rw [if_neg (by omega), if_neg hfin]

theorem fillAll_run (m n : Nat) (keys : List Nat) (sigOf : Nat → Nat)
    (hknd : keys.Nodup) (hkn : keys.length = n) :
    ∀ (ks S : List Nat), (S ++ ks).Nodup → (∀ x ∈ S ++ ks, x ∈ keys) →
      S.length + ks.length = m → ks ≠ [] →
      fillAll m n keys sigOf ks (stateOf keys sigOf S) =
        some (msFinal keys sigOf (S ++ ks)) := by
  intro ks
  induction ks with
  | nil => exact fun S _ _ _ hne => absurd rfl hne
  | cons k ks' ih =>
    intro S hnd hsub hlen _
    have hperm : (S ++ k :: ks').Perm (k :: (S ++ ks')) := List.perm_middle
    have hnd2 : (k :: (S ++ ks')).Nodup := hperm.nodup hnd
    have hkS : k ∉ S := fun h =>
      (List.nodup_cons.mp hnd2).1 (List.mem_append.mpr (Or.inl h))
    have hS : S.Nodup := List.Nodup.of_append_left ((List.nodup_cons.mp hnd2).2)
    have hkkeys : k ∈ keys := hsub k (by simp)
    have hsubS : ∀ x ∈ S, x ∈ keys := fun x hx =>
      hsub x (List.mem_append.mpr (Or.inl hx))
    have hlen' : S.length + (ks'.length + 1) = m := by simpa using hlen
    have hltS : S.length < m := by omega
    have hstep := multisigFill_step m n keys S sigOf k hknd hkn hS hsubS hkkeys hkS hltS
    simp only [fillAll, signVector, signerRing]
    rw [hstep]
    by_cases hfin : S.length + 1 = m
    · have hks' : ks' = [] := by
        have : ks'.length = 0 := by omega
        exact List.length_eq_zero.mp this
      subst hks'
      rw [if_pos hfin]
      show fillAll m n keys sigOf [] (msFinal keys sigOf (k :: S)) =
        some (msFinal keys sigOf (S ++ [k]))
      simp only [fillAll]
      have : msFinal keys sigOf (k :: S) = msFinal keys sigOf (S ++ [k]) := by
        apply msFinal_congr
        intro x
        simp [List.mem_cons, List.mem_append, or_comm]
      rw [this]
    · rw [if_neg hfin]
      have hsub2 : ∀ x ∈ (k :: S) ++ ks', x ∈ keys := by
        intro x hx
        exact hsub x (hperm.symm.subset hx)
      have hlen2 : (k :: S).length + ks'.length = m := by simp; omega
      have hne2 : ks' ≠ [] := by
        rintro rfl
        simp at hlen'
        omega
      have := ih (k :: S) hnd2 hsub2 hlen2 hne2
      show fillAll m n keys sigOf ks' (stateOf keys sigOf (k :: S)) =
        some (msFinal keys sigOf (S ++ k :: ks'))
      rw [this]
      congr 1
      apply msFinal_congr
      intro x
      simp [List.mem_cons, List.mem_append]
      tauto

/-- C2: for a bare m-of-n multisig previous script (well-formed: `n` distinct
keys, threshold at least one), filling the templated vector via `signVector`
with the signatures of any list of m distinct authorized keys converges, in
any permutation, to the same final vector — the marker followed by exactly m
signatures in script-key order (m + 1 items) — and re-applying any of those
keys' signatures afterwards is a success no-op. -/
theorem claim2_signVector_multisig_commutes
    (m n : Nat) (keys ks1 ks2 : List Nat) (sigOf : Nat → Nat)
    (hknd : keys.Nodup) (hkn : keys.length = n) (hm : 1 ≤ m)
    (hnd1 : ks1.Nodup) (hperm : ks1.Perm ks2) (hlen1 : ks1.length = m)
    (hsub1 : ∀ x ∈ ks1, x ∈ keys) :
    fillAll m n keys sigOf ks1 (List.replicate (n + 1) (Item.smallOp 0)) =
      some (msFinal keys sigOf ks1) ∧
    fillAll m n keys sigOf ks2 (List.replicate (n + 1) (Item.smallOp 0)) =
      some (msFinal keys sigOf ks1) ∧
    (msFinal keys sigOf ks1).length = m + 1 ∧
    ∀ k ∈ ks1, signVector (.multisig m keys n) (msFinal keys sigOf ks1)
        (Item.sig (sigOf k)) (signerRing k) = some (msFinal keys sigOf ks1, true) := by
  have hrepl : List.replicate (n + 1) (Item.smallOp 0) = stateOf keys sigOf [] := by
    rw [stateOf_nil, hkn]
  have hne1 : ks1 ≠ [] := by
    rintro rfl
    simp at hlen1
    omega
  have h1 : fillAll m n keys sigOf ks1 (stateOf keys sigOf []) =
      some (msFinal keys sigOf ks1) := by
    have := fillAll_run m n keys sigOf hknd hkn ks1 [] (by simpa using hnd1)
      (by simpa using hsub1) (by simpa using hlen1) hne1
    simpa using this
  have hnd2 : ks2.Nodup := hperm.nodup hnd1
  have hsub2 : ∀ x ∈ ks2, x ∈ keys := fun x hx => hsub1 x (hperm.mem_iff.mpr hx)
  have hlen2 : ks2.length = m := by rw [← hperm.length_eq]; exact hlen1
  have hne2 : ks2 ≠ [] := by
    rintro rfl
    simp at hlen2
    omega
  have h2 : fillAll m n keys sigOf ks2 (stateOf keys sigOf []) =
      some (msFinal keys sigOf ks2) := by
    have := fillAll_run m n keys sigOf hknd hkn ks2 [] (by simpa using hnd2)
      (by simpa using hsub2) (by simpa using hlen2) hne2
    simpa using this
  have hcong : msFinal keys sigOf ks2 = msFinal keys sigOf ks1 :=
    msFinal_congr keys ks2 ks1 sigOf (fun x => hperm.mem_iff.symm)
  have hflen : (msFinal keys sigOf ks1).length = m + 1 := by
    simp only [msFinal, List.length_cons, List.length_map]
    rw [filter_mem_length keys ks1 hknd hnd1 hsub1, hlen1]
  refine ⟨by rw [hrepl]; exact h1, by rw [hrepl, h2, hcong], hflen, ?_⟩
  intro k hkmem
  simp only [signVector, signerRing]
  have hg0 : getSmall (msFinal keys sigOf ks1) 0 = 0 := by simp [msFinal, getSmall]
  have hc1 : ¬ (getSmall (msFinal keys sigOf ks1) 0 ≠ 0) := by rw [hg0]; simp
  have hm_le_n : m ≤ n := by
    have hfm := filter_mem_length keys ks1 hknd hnd1 hsub1
    have hle := List.length_filter_le (fun x => decide (x ∈ ks1)) keys
    omega
  have hc2 : ¬ (((msFinal keys sigOf ks1).length : Int) - 1 > (n : Int)) := by
    rw [hflen]; push_cast; omega
  have htot : countSigs (msFinal keys sigOf ks1) = m := by
    rw [countSigs_msFinal, filter_mem_length keys ks1 hknd hnd1 hsub1, hlen1]
  have hc3 : countSigs (msFinal keys sigOf ks1) = m ∧
      ((msFinal keys sigOf ks1).length : Int) - 1 = (m : Int) := by
    refine ⟨htot, ?_⟩
    rw [hflen]; push_cast; omega
  simp only [multisigFill, if_neg hc1, if_neg hc2, if_pos hc3]

/-- Witness for C2 at a concrete 2-of-3 script with keys 1, 2, 3: signers 1
and 3 in either order reach the same two-signature vector, of length 3, and
signer 1 re-applying is accepted without change. -/
theorem claim2_signVector_multisig_commutes_witness :
    fillAll 2 3 [1, 2, 3] idSig [1, 3] (List.replicate 4 (Item.smallOp 0)) =
      some (msFinal [1, 2, 3] idSig [1, 3]) ∧
    fillAll 2 3 [1, 2, 3] idSig [3, 1] (List.replicate 4 (Item.smallOp 0)) =
      some (msFinal [1, 2, 3] idSig [1, 3]) ∧
    (msFinal [1, 2, 3] idSig [1, 3]).length = 3 ∧
    signVector (.multisig 2 [1, 2, 3] 3) (msFinal [1, 2, 3] idSig [1, 3])
      (Item.sig (idSig 1)) (signerRing 1) = some (msFinal [1, 2, 3] idSig [1, 3], true) := by
  obtain ⟨h1, h2, h3, h4⟩ :=
    claim2_signVector_multisig_commutes 2 3 [1, 2, 3] [1, 3] [3, 1] idSig
      (by decide) (by decide) (by decide) (by decide) (by decide) (by decide)
      (by decide)
  exact ⟨h1, h2, h3, h4 1 (by decide)⟩

theorem init_ok_facts (shuffle : List Coin → List Coin) (opts : SelOpts) (ov : Int)
    (coins : List Coin) (s0 : Selector)
    (h : CoinSelector.init shuffle opts ov coins = .ok s0) :
    s0.opts = opts ∧ s0.outputValue = ov ∧ s0.index = 0 ∧ s0.chosen = [] ∧
    s0.fee = 0 := by
  cases hsel : opts.selection <;> simp only [CoinSelector.init, hsel] at h <;>
    first
    | (injection h with h; exact h ▸ ⟨rfl, rfl, rfl, rfl, rfl⟩)
    | cases h

theorem init_error_eq (shuffle : List Coin → List Coin) (opts : SelOpts) (ov : Int)
    (coins : List Coin) (e : FundingError)
    (h : CoinSelector.init shuffle opts ov coins = .error e) : e = .badSelection := by
  cases hsel : opts.selection <;> simp only [CoinSelector.init, hsel] at h <;>
    first
    | (injection h with h; exact h.symm)
    | cases h

theorem fundFuel_opts (f : Nat) (s : Selector) :
    (CoinSelector.fundFuel f s).opts = s.opts ∧
    (CoinSelector.fundFuel f s).coins = s.coins ∧
    (CoinSelector.fundFuel f s).outputValue = s.outputValue ∧
    (CoinSelector.fundFuel f s).fee = s.fee := by
  induction f generalizing s with
  | zero => exact ⟨rfl, rfl, rfl, rfl⟩
  | succ f ih =>
    simp only [CoinSelector.fundFuel]
    split
    · split
      · exact ih _
      · split
        · exact ih _
        · split
          · exact ⟨rfl, rfl, rfl, rfl⟩
          · exact ih _
    · exact ⟨rfl, rfl, rfl, rfl⟩

theorem fundFuel_chosen (f : Nat) (s : Selector) :
    ∀ c ∈ (CoinSelector.fundFuel f s).chosen,
      c ∈ s.chosen ∨ CoinSelector.isSpendable s c = true := by
  induction f generalizing s with
  | zero => exact fun c hc => Or.inl hc
  | succ f ih =>
    intro c hc
    simp only [CoinSelector.fundFuel] at hc
    split at hc
    · rename_i h
      split at hc
      · rcases ih _ c hc with h1 | h1
        · exact Or.inl h1
        · exact Or.inr h1
      · rename_i hsp
        have hspT : CoinSelector.isSpendable s (s.coins.get ⟨s.index, h⟩) = true := by
          simpa using hsp
        split at hc
        · rcases ih _ c hc with h1 | h1
          · rcases List.mem_append.mp h1 with h2 | h2
            · exact Or.inl h2
            · have hce : c = s.coins.get ⟨s.index, h⟩ := by simpa using h2
              exact Or.inr (hce ▸ hspT)
          · exact Or.inr h1
        · split at hc
          · rcases List.mem_append.mp hc with h2 | h2
            · exact Or.inl h2
            · have hce : c = s.coins.get ⟨s.index, h⟩ := by simpa using h2
              exact Or.inr (hce ▸ hspT)
          · rcases ih _ c hc with h1 | h1
            · rcases List.mem_append.mp h1 with h2 | h2
              · exact Or.inl h2
              · have hce : c = s.coins.get ⟨s.index, h⟩ := by simpa using h2
                exact Or.inr (hce ▸ hspT)
            · exact Or.inr h1
    · exact Or.inl hc

theorem fundGo_opts (s : Selector) :
    (CoinSelector.fundGo s).opts = s.opts ∧
    (CoinSelector.fundGo s).coins = s.coins ∧
    (CoinSelector.fundGo s).outputValue = s.outputValue ∧
    (CoinSelector.fundGo s).fee = s.fee := fundFuel_opts _ _

theorem fundGo_chosen (s : Selector) :
    ∀ c ∈ (CoinSelector.fundGo s).chosen,
      c ∈ s.chosen ∨ CoinSelector.isSpendable s c = true := fundFuel_chosen _ _

theorem selLoop_ok_facts (estSize : Selector → Int) :
    ∀ (f : Nat) (s s2 : Selector),
    CoinSelector.selLoopFuel estSize f s = .ok s2 →
    s2.opts = s.opts ∧ s2.coins = s.coins ∧ s2.outputValue = s.outputValue ∧
    (∀ c ∈ s2.chosen, c ∈ s.chosen ∨
      spendableB s.opts.height s.opts.confirmations c = true) := by
  intro f
  induction f with
  | zero =>
    intro s s2 h
    injection h with h
    exact h ▸ ⟨rfl, rfl, rfl, fun c hc => Or.inl hc⟩
  | succ f ih =>
    intro s s2 h
    by_cases hmax : s.opts.maxFee > 0 ∧ CoinSelector.getFee s (estSize s) > s.opts.maxFee
    · simp only [CoinSelector.selLoopFuel] at h
      rw [if_pos hmax] at h
      cases h
    · by_cases hful :
          CoinSelector.isFull { s with fee := CoinSelector.getFee s (estSize s) } = true
      · simp only [CoinSelector.selLoopFuel] at h
        rw [if_neg hmax, if_pos hful, if_pos (Or.inl hful)] at h
        injection h with h2
        exact h2 ▸ ⟨rfl, rfl, rfl, fun c hc => Or.inl hc⟩
      · simp only [CoinSelector.selLoopFuel] at h
        rw [if_neg hmax, if_neg hful] at h
        split at h
        · injection h with h2
          subst h2
          obtain ⟨ho, hc, hov, hf⟩ :=
            fundGo_opts { s with fee := CoinSelector.getFee s (estSize s) }
          refine ⟨ho, hc, hov, ?_⟩
          intro c hcm
          rcases fundGo_chosen _ c hcm with h1 | h1
          · exact Or.inl h1
          · exact Or.inr h1
        · obtain ⟨ho2, hc2, hov2, hch2⟩ := ih _ _ h
          obtain ⟨ho1, hc1, hov1, hf1⟩ :=
            fundGo_opts { s with fee := CoinSelector.getFee s (estSize s) }
          refine ⟨ho2.trans ho1, hc2.trans hc1, hov2.trans hov1, ?_⟩
          intro c hcm
          rcases hch2 c hcm with h1 | h1
          · rcases fundGo_chosen _ c h1 with h3 | h3
            · exact Or.inl h3
            · exact Or.inr h3
          · rw [ho1] at h1
            exact Or.inr h1

theorem selLoop_error (estSize : Selector → Int) :
    ∀ (f : Nat) (s : Selector) (e : FundingError),
    CoinSelector.selLoopFuel estSize f s = .error e → e = .feeTooHigh := by
  intro f
  induction f with
  | zero => intro s e h; cases h
  | succ f ih =>
    intro s e h
    simp only [CoinSelector.selLoopFuel] at h
    split at h
    · injection h with h
      exact h.symm
    · split at h <;> split at h <;>
        first
        | cases h
        | exact ih _ _ h

theorem selectEstimate_error (estSize : Selector → Int) (s : Selector) (fee : Int)
    (e : FundingError) (h : CoinSelector.selectEstimate estSize s fee = .error e) :
    e = .feeTooHigh := by
  simp only [CoinSelector.selectEstimate] at h
  exact selLoop_error estSize _ _ _ h

theorem select_ok_master (shuffle : List Coin → List Coin) (estSize : Selector → Int)
    (opts : SelOpts) (ov : Int) (coins : List Coin) (s' : Selector)
    (h : CoinSelector.select shuffle estSize opts ov coins = .ok s') :
    s'.opts = opts ∧ s'.outputValue = ov ∧
    CoinSelector.total s' ≤ CoinSelector.inputValue s' ∧
    s'.change = CoinSelector.inputValue s' - CoinSelector.total s' ∧
    (∀ c ∈ s'.chosen, spendableB opts.height opts.confirmations c = true) ∧
    (opts.hardFee ≠ -1 →
      s'.fee = if opts.hardFee > MAX_FEE then MAX_FEE else opts.hardFee) := by
  rcases hinit : CoinSelector.init shuffle opts ov coins with e0 | s0
  · simp only [CoinSelector.select, hinit] at h
    simp at h
  · obtain ⟨hopts0, hov0, hidx0, hch0, hfee0⟩ := init_ok_facts _ _ _ _ _ hinit
    simp only [CoinSelector.select, hinit] at h
    rcases hmode : (if s0.opts.hardFee ≠ -1
        then (.ok (CoinSelector.selectHard s0 s0.opts.hardFee) : Except FundingError Selector)
        else CoinSelector.selectEstimate estSize s0 MIN_FEE) with e2 | s2
    · simp only [hmode] at h
      simp at h
    · simp only [hmode] at h
      have hs2 : s2.opts = s0.opts ∧ s2.outputValue = s0.outputValue ∧
          (∀ c ∈ s2.chosen, spendableB s0.opts.height s0.opts.confirmations c = true) ∧
          (s0.opts.hardFee ≠ -1 →
            s2.fee = if s0.opts.hardFee > MAX_FEE then MAX_FEE else s0.opts.hardFee) := by
        by_cases hhf : s0.opts.hardFee ≠ -1
        · rw [if_pos hhf] at hmode
          injection hmode with hmode
          simp only [CoinSelector.selectHard] at hmode
          subst hmode
          obtain ⟨ho, hc, hov2, hf⟩ := fundGo_opts
            { s0 with fee := if s0.opts.hardFee > MAX_FEE then MAX_FEE else s0.opts.hardFee }
          refine ⟨ho, hov2, ?_, fun _ => hf⟩
          intro c hcm
          rcases fundGo_chosen _ c hcm with h1 | h1
          · have : c ∈ s0.chosen := h1
            rw [hch0] at this
            simp at this
          · exact h1
        · rw [if_neg hhf] at hmode
          simp only [CoinSelector.selectEstimate] at hmode
          obtain ⟨ho2, hc2, hov2, hch2⟩ := selLoop_ok_facts estSize _ _ _ hmode
          obtain ⟨ho1, hc1, hov1, hf1⟩ := fundGo_opts { s0 with fee := MIN_FEE }
          refine ⟨ho2.trans ho1, hov2.trans hov1, ?_, fun hcon => absurd hcon hhf⟩
          intro c hcm
          rcases hch2 c hcm with h1 | h1
          · rcases fundGo_chosen _ c h1 with h3 | h3
            · have : c ∈ s0.chosen := h3
              rw [hch0] at this
              simp at this
            · exact h3
          · rw [ho1] at h1
            exact h1
      obtain ⟨hs2o, hs2ov, hs2ch, hs2f⟩ := hs2
      by_cases hful : CoinSelector.isFull s2 = false
      · rw [if_pos hful] at h
        simp at h
      · rw [if_neg hful] at h
        injection h with h
        subst h
        have hfulT : CoinSelector.isFull s2 = true := by
          cases hq : CoinSelector.isFull s2
          · exact absurd hq hful
          · rfl
        have hle : CoinSelector.total s2 ≤ CoinSelector.inputValue s2 := by
          simpa [CoinSelector.isFull] using hfulT
        refine ⟨hs2o.trans hopts0, hs2ov.trans hov0, hle, rfl, ?_, ?_⟩
        · intro c hcm
          have := hs2ch c hcm
          rw [hopts0] at this
          exact this
        · intro hhf
          rw [← hopts0] at hhf
          have := hs2f hhf
          rw [hopts0] at this
          exact this
  
theorem select_error_kinds (shuffle : List Coin → List Coin) (estSize : Selector → Int)
    (opts : SelOpts) (ov : Int) (coins : List Coin) (e : FundingError)
    (h : CoinSelector.select shuffle estSize opts ov coins = .error e) :
    e = .badSelection ∨
    (∃ g r, e = .notEnoughFunds g r ∧ g < r) ∨
    (e = .feeTooHigh ∧ opts.hardFee = -1) := by
  rcases hinit : CoinSelector.init shuffle opts ov coins with e0 | s0
  · simp only [CoinSelector.select, hinit] at h
    injection h with h
    exact Or.inl (h ▸ init_error_eq _ _ _ _ _ hinit)
  · obtain ⟨hopts0, hov0, hidx0, hch0, hfee0⟩ := init_ok_facts _ _ _ _ _ hinit
    simp only [CoinSelector.select, hinit] at h
    rcases hmode : (if s0.opts.hardFee ≠ -1
        then (.ok (CoinSelector.selectHard s0 s0.opts.hardFee) : Except FundingError Selector)
        else CoinSelector.selectEstimate estSize s0 MIN_FEE) with e2 | s2
    · simp only [hmode] at h
      injection h with h
      subst h
      by_cases hhf : s0.opts.hardFee ≠ -1
      · rw [if_pos hhf] at hmode
        cases hmode
      · rw [if_neg hhf] at hmode
        right; right
        refine ⟨selectEstimate_error _ _ _ _ hmode, ?_⟩
        rw [← hopts0]
        push_neg at hhf
        exact hhf
    · simp only [hmode] at h
      by_cases hful : CoinSelector.isFull s2 = false
      · rw [if_pos hful] at h
        injection h with h
        right; left
        refine ⟨CoinSelector.inputValue s2, CoinSelector.total s2, h.symm, ?_⟩
        have hnot : ¬ (CoinSelector.total s2 ≤ CoinSelector.inputValue s2) := by
          simpa [CoinSelector.isFull] using hful
        omega
      · rw [if_neg hful] at h
        simp at h

/-- C1: `CoinSelector.select` never returns success while the accumulated
input value is below the funding target — output total when fee subtraction
is requested, output total plus fee otherwise; on shortfall it throws the
funding error carrying the gathered and required amounts (gathered strictly
below required), and on success the reported change equals input value
minus target. -/
theorem claim1_select_funding (shuffle : List Coin → List Coin)
    (estSize : Selector → Int) (opts : SelOpts) (ov : Int) (coins : List Coin) :
    (∀ s', CoinSelector.select shuffle estSize opts ov coins = .ok s' →
      CoinSelector.total s' ≤ CoinSelector.inputValue s' ∧
      s'.change = CoinSelector.inputValue s' - CoinSelector.total s' ∧
      s'.outputValue = ov ∧
      CoinSelector.total s' = (if opts.shouldSubtract then ov else ov + s'.fee)) ∧
    (∀ g r, CoinSelector.select shuffle estSize opts ov coins =
      .error (.notEnoughFunds g r) → g < r) := by
  constructor
  · intro s' h
    obtain ⟨ho, hov, hle, hch, hsp, hfee⟩ := select_ok_master _ _ _ _ _ _ h
    refine ⟨hle, hch, hov, ?_⟩
    rw [CoinSelector.total, ho, hov]
  · intro g r h
    rcases select_error_kinds _ _ _ _ _ _ h with h1 | ⟨g2, r2, h2, hlt⟩ | ⟨h3, _⟩
    · exact FundingError.noConfusion h1
    · injection h2 with hg hr
      subst hg
      subst hr
      exact hlt
    · exact FundingError.noConfusion h3

/-- Witness for C1: an empty candidate list cannot fund a 10-unit output
with estimated fee 1000, and the funding error carries 0 gathered against
1010 required. -/
theorem claim1_select_funding_witness :
    CoinSelector.select idShuffle constSize
      ⟨.age, false, .anyOutput, -1, -1, -1, 10000, -1, false⟩ 10 [] =
      .error (.notEnoughFunds 0 1010) ∧ (0 : Int) < 1010 :=
  ⟨by rfl, (claim1_select_funding idShuffle constSize
      ⟨.age, false, .anyOutput, -1, -1, -1, 10000, -1, false⟩ 10 []).2 0 1010
      (by rfl)⟩

/-- C9 amended: whenever a current height is configured (height ≠ -1),
every coinbase coin chosen by a selection run has a known creation height
and satisfies height + maturity ≤ current height + 1.  With no configured
height the source skips every spendability check (see counterexample). -/
theorem claim9_coinbase_maturity (shuffle : List Coin → List Coin)
    (estSize : Selector → Int) (opts : SelOpts) (ov : Int) (coins : List Coin)
    (hh : opts.height ≠ -1) :
    ∀ s', CoinSelector.select shuffle estSize opts ov coins = .ok s' →
      ∀ c ∈ s'.chosen, c.coinbase = true →
        c.height ≠ -1 ∧ c.height + COINBASE_MATURITY ≤ opts.height + 1 := by
  intro s' h c hc hcb
  obtain ⟨ho, hov, hle, hch, hsp, hfee⟩ := select_ok_master _ _ _ _ _ _ h
  have hspc := hsp c hc
  rw [spendableB, if_neg hh] at hspc
  by_cases h1 : c.coinbase = true ∧ c.height = -1
  · rw [if_pos h1] at hspc
    cases hspc
  · rw [if_neg h1] at hspc
    by_cases h2 : c.coinbase = true ∧ opts.height + 1 < c.height + COINBASE_MATURITY
    · rw [if_pos h2] at hspc
      cases hspc
    · refine ⟨fun hch2 => h1 ⟨hcb, hch2⟩, ?_⟩
      by_contra hcon
      push_neg at hcon
      exact h2 ⟨hcb, by omega⟩

/-- Witness for C9 (amended): at height 200 a mature coinbase coin from
height 50 is selected and indeed satisfies the maturity bound. -/
theorem claim9_coinbase_maturity_witness :
    (50 : Int) ≠ -1 ∧ (50 : Int) + COINBASE_MATURITY ≤ 200 + 1 :=
  claim9_coinbase_maturity idShuffle constSize
    ⟨.age, false, .anyOutput, 200, -1, 0, 10000, -1, false⟩ 50
    [⟨100, 50, true, .other⟩] (by decide)
    ⟨⟨.age, false, .anyOutput, 200, -1, 0, 10000, -1, false⟩,
      [⟨100, 50, true, .other⟩], 50, 1, [⟨100, 50, true, .other⟩], 50, 0⟩
    (by rfl) ⟨100, 50, true, .other⟩ (by decide) rfl

/-- Counterexample to C9 as stated: with no height configured (the -1
default), the selector happily chooses a coinbase coin created at height
1000 even though 1000 + maturity far exceeds height + 1. -/
theorem claim9_coinbase_maturity_counterexample :
    selChosen (CoinSelector.select idShuffle constSize
      ⟨.age, false, .anyOutput, -1, -1, 0, 10000, -1, false⟩ 50
      [⟨100, 1000, true, .other⟩]) = [⟨100, 1000, true, .other⟩] ∧
    (⟨100, 1000, true, .other⟩ : Coin).coinbase = true ∧
    ¬ ((1000 : Int) + COINBASE_MATURITY ≤ (-1) + 1) :=
  ⟨by decide, rfl, by decide⟩

/-- C7 amended: in hard-fee mode the configured maximum fee is not
consulted; selection never fails with the fee-too-high error (only
`selectEstimate` raises it), and on success the fee is the hard fee capped
at the protocol `MAX_FEE` — even when the hard fee exceeds `maxFee`. -/
theorem claim7_hardfee_bypasses_maxfee (shuffle : List Coin → List Coin)
    (estSize : Selector → Int) (opts : SelOpts) (ov : Int) (coins : List Coin)
    (hhf : opts.hardFee ≠ -1) :
    CoinSelector.select shuffle estSize opts ov coins ≠ .error .feeTooHigh ∧
    (∀ s', CoinSelector.select shuffle estSize opts ov coins = .ok s' →
      s'.fee = if opts.hardFee > MAX_FEE then MAX_FEE else opts.hardFee) := by
  constructor
  · intro h
    rcases select_error_kinds _ _ _ _ _ _ h with h1 | ⟨g, r, h2, _⟩ | ⟨_, h3⟩
    · exact FundingError.noConfusion h1
    · exact FundingError.noConfusion h2
    · exact hhf h3
  · intro s' h
    exact (select_ok_master _ _ _ _ _ _ h).2.2.2.2.2 hhf

/-- Witness for C7 (amended): hard fee 100 above the configured maximum 50
still does not produce the fee-too-high error. -/
theorem claim7_hardfee_bypasses_maxfee_witness :
    CoinSelector.select idShuffle constSize
      ⟨.age, false, .anyOutput, -1, -1, 100, 10000, 50, false⟩ 0
      [⟨200, 5, false, .other⟩] ≠ .error .feeTooHigh :=
  (claim7_hardfee_bypasses_maxfee idShuffle constSize
    ⟨.age, false, .anyOutput, -1, -1, 100, 10000, 50, false⟩ 0
    [⟨200, 5, false, .other⟩] (by decide)).1

/-- Counterexample to C7 as stated: the hard fee 100 exceeds the configured
maximum fee 50, yet funding succeeds — with fee 100 — instead of failing
with a fee-too-high funding error. -/
theorem claim7_hardfee_counterexample :
    selOk (CoinSelector.select idShuffle constSize
      ⟨.age, false, .anyOutput, -1, -1, 100, 10000, 50, false⟩ 0
      [⟨200, 5, false, .other⟩]) = true ∧
    selFee (CoinSelector.select idShuffle constSize
      ⟨.age, false, .anyOutput, -1, -1, 100, 10000, 50, false⟩ 0
      [⟨200, 5, false, .other⟩]) = 100 ∧
    (100 : Int) > 50 :=
  ⟨by decide, by decide, by decide⟩

theorem fundFuel_all (f : Nat) (s : Selector) (hsel : s.opts.selection = .all)
    (hf : s.coins.length - s.index ≤ f) (hin : s.index ≤ s.coins.length) :
    CoinSelector.fundFuel f s =
      ⟨s.opts, s.coins, s.outputValue, s.coins.length,
        s.chosen ++ (s.coins.drop s.index).filter
          (fun c => spendableB s.opts.height s.opts.confirmations c),
        s.change, s.fee⟩ := by
  induction f generalizing s with
  | zero =>
    have hix : s.index = s.coins.length := by omega
    have hd : s.coins.drop s.index = [] := by
      rw [hix]
      exact List.drop_length _
    rw [hd]
    simp only [List.filter_nil, List.append_nil, ← hix]
    rfl
  | succ f ih =>
    by_cases h : s.index < s.coins.length
    · have hdrop : s.coins.drop s.index =
          s.coins.get ⟨s.index, h⟩ :: s.coins.drop (s.index + 1) := by
        rw [List.drop_eq_getElem_cons h]
        rfl
      simp only [CoinSelector.fundFuel]
      rw [dif_pos h]
      by_cases hsp : CoinSelector.isSpendable s (s.coins.get ⟨s.index, h⟩) = false
      · rw [if_pos hsp]
        rw [ih { s with index := s.index + 1 }
          (show s.opts.selection = .all from hsel)
          (show s.coins.length - (s.index + 1) ≤ f by omega)
          (show s.index + 1 ≤ s.coins.length by omega)]
        have hspB : spendableB s.opts.height s.opts.confirmations
            (s.coins.get ⟨s.index, h⟩) = false := hsp
        rw [hdrop, List.filter_cons_of_neg (by simpa using hspB)]
      · rw [if_neg hsp, if_pos (show s.opts.selection = .all from hsel)]
        rw [ih { s with index := s.index + 1, chosen := s.chosen ++ [s.coins.get ⟨s.index, h⟩] }
          (show s.opts.selection = .all from hsel)
          (show s.coins.length - (s.index + 1) ≤ f by omega)
          (show s.index + 1 ≤ s.coins.length by omega)]
        have hspB : spendableB s.opts.height s.opts.confirmations
            (s.coins.get ⟨s.index, h⟩) = true := by
          cases hq : CoinSelector.isSpendable s (s.coins.get ⟨s.index, h⟩)
          · exact absurd hq hsp
          · exact hq
        rw [hdrop, List.filter_cons_of_pos (by simpa using hspB)]
        simp
    · have hix : s.index = s.coins.length := by omega
      have hd : s.coins.drop s.index = [] := by
        rw [hix]
        exact List.drop_length _
      simp only [CoinSelector.fundFuel]
      rw [dif_neg h, hd]
      simp only [List.filter_nil, List.append_nil, ← hix]

theorem fundGo_all_from_start (s : Selector) (hsel : s.opts.selection = .all)
    (hidx : s.index = 0) :
    CoinSelector.fundGo s =
      ⟨s.opts, s.coins, s.outputValue, s.coins.length,
        s.chosen ++ s.coins.filter
          (fun c => spendableB s.opts.height s.opts.confirmations c),
        s.change, s.fee⟩ := by
  rw [CoinSelector.fundGo, fundFuel_all _ _ hsel (by omega) (by omega), hidx,
    List.drop_zero]

theorem selLoop_at_end (estSize : Selector → Int) (f : Nat) (s : Selector)
    (hidx : s.coins.length ≤ s.index) (s2 : Selector)
    (h : CoinSelector.selLoopFuel estSize (f + 1) s = .ok s2) :
    s2.chosen = s.chosen := by
  simp only [CoinSelector.selLoopFuel] at h
  split at h
  · cases h
  · have hfg : CoinSelector.fundGo { s with fee := CoinSelector.getFee s (estSize s) } =
        { s with fee := CoinSelector.getFee s (estSize s) } := by
      rw [CoinSelector.fundGo]
      have hz : ({ s with fee := CoinSelector.getFee s (estSize s) } : Selector).coins.length -
          ({ s with fee := CoinSelector.getFee s (estSize s) } : Selector).index = 0 := by
        show s.coins.length - s.index = 0
        omega
      rw [hz]
      rfl
    rw [hfg, ite_self] at h
    rw [if_pos (Or.inr (show ({ s with fee := CoinSelector.getFee s (estSize s) } :
        Selector).coins.length ≤ ({ s with fee := CoinSelector.getFee s (estSize s) } :
        Selector).index from hidx))] at h
    injection h with h
    rw [← h]

/-- C8 amended: under strategy `all` the candidate list is randomly
reordered exactly like strategy `random` (shared `sortRandom` case, modelled
by the `shuffle` parameter); every spendable candidate of the shuffled list
is consumed regardless of whether the target is already covered, and the
input-value-at-least-target success check still holds on success. -/
theorem claim8_all_strategy (shuffle : List Coin → List Coin)
    (estSize : Selector → Int) (opts : SelOpts) (ov : Int) (coins : List Coin)
    (hsel : opts.selection = .all) :
    ∀ s', CoinSelector.select shuffle estSize opts ov coins = .ok s' →
      s'.chosen = (shuffle coins).filter
        (fun c => spendableB opts.height opts.confirmations c) ∧
      CoinSelector.total s' ≤ CoinSelector.inputValue s' := by
  intro s' h
  have hle := (select_ok_master _ _ _ _ _ _ h).2.2.1
  refine ⟨?_, hle⟩
  have hinit : CoinSelector.init shuffle opts ov coins =
      .ok ⟨opts, shuffle coins, ov, 0, [], 0, 0⟩ := by
    simp [CoinSelector.init, hsel]
  simp only [CoinSelector.select, hinit] at h
  by_cases hhf : opts.hardFee ≠ -1
  · rw [if_pos (show (⟨opts, shuffle coins, ov, 0, [], 0, 0⟩ :
        Selector).opts.hardFee ≠ -1 from hhf)] at h
    have hhard : CoinSelector.selectHard (⟨opts, shuffle coins, ov, 0, [], 0, 0⟩ : Selector)
        (⟨opts, shuffle coins, ov, 0, [], 0, 0⟩ : Selector).opts.hardFee =
        ⟨opts, shuffle coins, ov, (shuffle coins).length,
          (shuffle coins).filter (fun c => spendableB opts.height opts.confirmations c),
          0, if opts.hardFee > MAX_FEE then MAX_FEE else opts.hardFee⟩ := by
      rw [CoinSelector.selectHard,
        fundGo_all_from_start _ (show _ from hsel) (show _ from rfl)]
      rfl
    simp only [hhard] at h
    split at h <;> split at h <;>
      first
      | (injection h with h; rw [← h])
      | simp at h
  · rw [if_neg (show ¬ (⟨opts, shuffle coins, ov, 0, [], 0, 0⟩ :
        Selector).opts.hardFee ≠ -1 from hhf)] at h
    have hA : CoinSelector.fundGo
        ({ (⟨opts, shuffle coins, ov, 0, [], 0, 0⟩ : Selector) with fee := MIN_FEE }) =
        ⟨opts, shuffle coins, ov, (shuffle coins).length,
          (shuffle coins).filter (fun c => spendableB opts.height opts.confirmations c),
          0, MIN_FEE⟩ := by
      rw [fundGo_all_from_start _ (show _ from hsel) (show _ from rfl)]
      rfl
    simp only [CoinSelector.selectEstimate, hA] at h
    rcases hloop : CoinSelector.selLoopFuel estSize ((shuffle coins).length + 1)
        ⟨opts, shuffle coins, ov, (shuffle coins).length,
          (shuffle coins).filter (fun c => spendableB opts.height opts.confirmations c),
          0, MIN_FEE⟩ with e2 | s2
    · simp only [hloop] at h
      simp at h
    · simp only [hloop] at h
      have hch2 : s2.chosen = (shuffle coins).filter
          (fun c => spendableB opts.height opts.confirmations c) :=
        selLoop_at_end estSize (shuffle coins).length _ (by exact le_refl _) s2 hloop
      split at h
      · simp at h
      · injection h with h
        rw [← h]
        exact hch2

/-- Witness for C8 (amended): strategy `all` with the identity shuffle
consumes the single spendable coin, skips the immature coinbase, and
reports a fully funded selection. -/
theorem claim8_all_strategy_witness :
    (⟨⟨.all, false, .anyOutput, 10, -1, 0, 10000, -1, false⟩,
      [⟨5, 1, false, .other⟩, ⟨7, 5, true, .other⟩], 0, 2,
      [⟨5, 1, false, .other⟩], 5, 0⟩ : Selector).chosen =
      (idShuffle [⟨5, 1, false, .other⟩, ⟨7, 5, true, .other⟩]).filter
        (fun c => spendableB 10 (-1) c) ∧
    CoinSelector.total
      (⟨⟨.all, false, .anyOutput, 10, -1, 0, 10000, -1, false⟩,
        [⟨5, 1, false, .other⟩, ⟨7, 5, true, .other⟩], 0, 2,
        [⟨5, 1, false, .other⟩], 5, 0⟩ : Selector) ≤
      CoinSelector.inputValue
        (⟨⟨.all, false, .anyOutput, 10, -1, 0, 10000, -1, false⟩,
          [⟨5, 1, false, .other⟩, ⟨7, 5, true, .other⟩], 0, 2,
          [⟨5, 1, false, .other⟩], 5, 0⟩ : Selector) :=
  claim8_all_strategy idShuffle constSize
    ⟨.all, false, .anyOutput, 10, -1, 0, 10000, -1, false⟩ 0
    [⟨5, 1, false, .other⟩, ⟨7, 5, true, .other⟩] rfl
    ⟨⟨.all, false, .anyOutput, 10, -1, 0, 10000, -1, false⟩,
      [⟨5, 1, false, .other⟩, ⟨7, 5, true, .other⟩], 0, 2,
      [⟨5, 1, false, .other⟩], 5, 0⟩ (by rfl)

/-- Counterexample to C8 as stated: `all` shares the `sortRandom` case with
`random`, so a reversing outcome of the randomized comparator sort delivers
the chosen coins in reversed order — the candidate list is not left in its
original order. -/
theorem claim8_all_strategy_counterexample :
    selChosen (CoinSelector.select revShuffle constSize
      ⟨.all, false, .anyOutput, -1, -1, 0, 10000, -1, false⟩ 0
      [⟨1, 1, false, .other⟩, ⟨2, 2, false, .other⟩]) =
      [⟨2, 2, false, .other⟩, ⟨1, 1, false, .other⟩] ∧
    ([⟨2, 2, false, .other⟩, ⟨1, 1, false, .other⟩] : List Coin) ≠
      [⟨1, 1, false, .other⟩, ⟨2, 2, false, .other⟩] :=
  ⟨by rfl, by decide⟩

/-- C3: every successful `MTX.fund` appends a change output; when it falls
below the dust threshold of the change script it is removed, the change
index is reset to -1 and the transaction fee equals the selector fee plus
the dropped change; otherwise the change index points at the appended
change output and the transaction fee equals the selector fee exactly. -/
theorem claim3_fund_change_accounting (shuffle : List Coin → List Coin)
    (estSize : Selector → Int) (tx : MTXf) (opts : SelOpts) (coins : List Coin)
    (cdust : Int) (chash : Option Nat) :
    ∀ tx' sel, mfund shuffle estSize tx opts coins cdust chash = .ok (tx', sel) →
      (sel.change < cdust →
        tx'.changeIndex = -1 ∧ mtxFee tx' = sel.fee + sel.change) ∧
      (¬ sel.change < cdust →
        tx'.changeIndex = (tx'.outputs.length : Int) - 1 ∧
        tx'.outputs.getLast? = some ⟨sel.change, cdust, chash⟩ ∧
        mtxFee tx' = sel.fee) := by
  intro tx' sel h
  simp only [mfund] at h
  split at h
  · cases h
  · rcases hsel2 : CoinSelector.select shuffle estSize opts (mtxOutputValue tx) coins
      with e | selr
    · simp only [hsel2] at h
      cases h
    · simp only [hsel2] at h
      rcases hsub : (if selr.opts.shouldSubtract
          then subtractFeeFn tx.outputs selr.fee selr.opts.subtractIdx
          else Except.ok tx.outputs) with e2 | outs2
      · simp only [hsub] at h
        cases h
      · simp only [hsub] at h
        split at h
        · rename_i hdust
          split at h
          · rename_i hfee
            injection h with h
            injection h with h1 h2
            subst h1
            subst h2
            refine ⟨fun _ => ⟨rfl, hfee⟩, fun hcon => absurd hdust hcon⟩
          · cases h
        · rename_i hdust
          split at h
          · rename_i hfee
            injection h with h
            injection h with h1 h2
            subst h1
            subst h2
            refine ⟨fun hcon => absurd hcon hdust, fun _ => ⟨?_, ?_, hfee⟩⟩
            · simp
            · simp [List.getLast?_concat]
          · cases h

/-- Witness for C3 at a concrete hard-fee funding run whose 40-unit change
clears the 1-unit dust threshold: the change output is kept at the change
index and the transaction fee equals the selector fee 10. -/
theorem claim3_fund_change_accounting_witness :
    (⟨[⟨100, 5, false, .other⟩], [⟨50, 0, none⟩, ⟨40, 1, none⟩], 1⟩ : MTXf).changeIndex = 1 ∧
    (⟨[⟨100, 5, false, .other⟩], [⟨50, 0, none⟩, ⟨40, 1, none⟩], 1⟩ : MTXf).outputs.getLast? =
      some ⟨40, 1, none⟩ ∧
    mtxFee ⟨[⟨100, 5, false, .other⟩], [⟨50, 0, none⟩, ⟨40, 1, none⟩], 1⟩ = 10 := by
  obtain ⟨h1, h2, h3⟩ :=
    (claim3_fund_change_accounting idShuffle constSize ⟨[], [⟨50, 0, none⟩], -1⟩
      ⟨.age, false, .anyOutput, -1, -1, 10, 10000, -1, false⟩ [⟨100, 5, false, .other⟩] 1 none
      ⟨[⟨100, 5, false, .other⟩], [⟨50, 0, none⟩, ⟨40, 1, none⟩], 1⟩
      ⟨⟨.age, false, .anyOutput, -1, -1, 10, 10000, -1, false⟩, [⟨100, 5, false, .other⟩],
        50, 1, [⟨100, 5, false, .other⟩], 40, 10⟩ (by rfl)).2 (by decide)
  refine ⟨?_, h2, h3⟩
  simp

theorem subSkip_eligible (fee : Int) (addrs : Option (List Nat)) (o : TxOutput) :
    (subSkip addrs o = true → subEligible fee addrs o = false) ∧
    (subSkip addrs o = false →
      subEligible fee addrs o = decide (fee + o.dust ≤ o.value)) := by
  rcases addrs with _ | hs
  · constructor
    · intro h
      exact Bool.noConfusion h
    · intro _
      simp [subEligible]
  · rcases hh : o.hash with _ | hsh
    · constructor
      · intro _
        simp [subEligible, hh]
      · intro h
        rw [subSkip, hh] at h
        exact Bool.noConfusion h
    · constructor
      · intro h
        rw [subSkip, hh] at h
        have h' : hsh ∉ hs := by simpa using h
        simp [subEligible, hh, h']
      · intro h
        rw [subSkip, hh] at h
        have h' : hsh ∈ hs := by simpa using h
        simp [subEligible, hh, h']

theorem subLoop_spec (fee : Int) (addrs : Option (List Nat)) :
    ∀ outs : List TxOutput,
      (subLoop fee addrs outs = none →
        ∀ o ∈ outs, subEligible fee addrs o = false) ∧
      (∀ outs', subLoop fee addrs outs = some outs' →
        ∃ pre oj post, outs = pre ++ oj :: post ∧
          (∀ o ∈ pre, subEligible fee addrs o = false) ∧
          subEligible fee addrs oj = true ∧
          outs' = pre ++ { oj with value := oj.value - fee } :: post) := by
  intro outs
  induction outs with
  | nil =>
    constructor
    · intro _ o ho
      simp at ho
    · intro outs' h
      simp [subLoop] at h
  | cons o rest ih =>
    by_cases hskip : subSkip addrs o = true
    · constructor
      · intro h o2 ho2
        simp only [subLoop, if_pos hskip] at h
        rw [Option.map_eq_none'] at h
        rcases List.mem_cons.mp ho2 with h2 | h2
        · exact h2 ▸ (subSkip_eligible fee addrs o).1 hskip
        · exact ih.1 h o2 h2
      · intro outs' h
        simp only [subLoop, if_pos hskip] at h
        rw [Option.map_eq_some'] at h
        obtain ⟨r', hr', hr2⟩ := h
        obtain ⟨pre, oj, post, hdec, hpre, hoj, hout⟩ := ih.2 r' hr'
        refine ⟨o :: pre, oj, post, by rw [List.cons_append, ← hdec], ?_, hoj,
          by rw [← hr2, hout]; rfl⟩
        intro o2 ho2
        rcases List.mem_cons.mp ho2 with h2 | h2
        · exact h2 ▸ (subSkip_eligible fee addrs o).1 hskip
        · exact hpre o2 h2
    · have hskipF : subSkip addrs o = false := by
        cases hq : subSkip addrs o
        · rfl
        · exact absurd hq hskip
      by_cases hval : fee + o.dust ≤ o.value
      · constructor
        · intro h
          simp only [subLoop, if_neg hskip, if_pos hval] at h
          cases h
        · intro outs' h
          simp only [subLoop, if_neg hskip, if_pos hval] at h
          injection h with h
          refine ⟨[], o, rest, rfl, by simp, ?_, by rw [← h]; rfl⟩
          rw [(subSkip_eligible fee addrs o).2 hskipF]
          simpa using hval
      · constructor
        · intro h o2 ho2
          simp only [subLoop, if_neg hskip, if_neg hval] at h
          rw [Option.map_eq_none'] at h
          rcases List.mem_cons.mp ho2 with h2 | h2
          · rw [h2, (subSkip_eligible fee addrs o).2 hskipF]
            simpa using hval
          · exact ih.1 h o2 h2
        · intro outs' h
          simp only [subLoop, if_neg hskip, if_neg hval] at h
          rw [Option.map_eq_some'] at h
          obtain ⟨r', hr', hr2⟩ := h
          obtain ⟨pre, oj, post, hdec, hpre, hoj, hout⟩ := ih.2 r' hr'
          refine ⟨o :: pre, oj, post, by rw [List.cons_append, ← hdec], ?_, hoj,
            by rw [← hr2, hout]; rfl⟩
          intro o2 ho2
          rcases List.mem_cons.mp ho2 with h2 | h2
          · rw [h2, (subSkip_eligible fee addrs o).2 hskipF]
            simpa using hval
          · exact hpre o2 h2

theorem subEligible_le (fee : Int) (addrs : Option (List Nat)) (o : TxOutput)
    (h : subEligible fee addrs o = true) : fee + o.dust ≤ o.value := by
  unfold subEligible at h
  rw [Bool.and_eq_true] at h
  exact of_decide_eq_true h.2

/-- C10 amended: subtractFee reduces exactly one output — the selected
index, or the first matching output whose value minus the fee still clears
its dust threshold — leaving the others unchanged and the reduced value at
or above the dust threshold; when no output can absorb the fee it throws a
plain Error, not the distinguished FundingError kind (see
counterexample). -/
theorem claim10_subtractFee (outs : List TxOutput) (fee : Int) (sel : SubIdx) :
    (∀ outs', subtractFeeFn outs fee sel = .ok outs' → ∃ pre oj post,
      outs = pre ++ oj :: post ∧
      fee + oj.dust ≤ oj.value ∧
      oj.dust ≤ oj.value - fee ∧
      outs' = pre ++ { oj with value := oj.value - fee } :: post ∧
      (match sel with
       | SubIdx.byIndex i => pre.length = i.toNat
       | SubIdx.byAddrs hs => (∀ o ∈ pre, subEligible fee (some hs) o = false) ∧
           subEligible fee (some hs) oj = true
       | SubIdx.anyOutput => (∀ o ∈ pre, subEligible fee none o = false) ∧
           subEligible fee none oj = true)) ∧
    (∀ e, subtractFeeFn outs fee sel = .error e →
      (e = MErr.couldNotSubtract ∨ e = MErr.subIdxMissing) ∧
      mErrIsFunding e = false) := by
  cases sel with
  | byIndex i =>
    constructor
    · intro outs' h
      simp only [subtractFeeFn] at h
      split at h
      · rename_i hin
        split at h
        · cases h
        · rename_i hlt
          have h2 : (Except.ok (outs.set i.toNat
              { outs.get ⟨i.toNat, hin.2⟩ with
                value := (outs.get ⟨i.toNat, hin.2⟩).value - fee }) :
              Except MErr (List TxOutput)) = .ok outs' := h
          injection h2 with h2
          have hge := not_lt.mp hlt
          refine ⟨outs.take i.toNat, outs.get ⟨i.toNat, hin.2⟩,
            outs.drop (i.toNat + 1), ?_, hge, by omega, ?_, ?_⟩
          · conv_lhs => rw [← List.take_append_drop i.toNat outs]
            rw [List.drop_eq_getElem_cons hin.2]
            rfl
          · rw [← h2, List.set_eq_take_append_cons_drop, if_pos hin.2]
          · simp only [List.length_take]
            omega
      · cases h
    · intro e h
      simp only [subtractFeeFn] at h
      split at h
      · split at h
        · have h2 : (Except.error MErr.couldNotSubtract :
              Except MErr (List TxOutput)) = .error e := h
          injection h2 with h2
          exact ⟨Or.inl h2.symm, by rw [← h2]; rfl⟩
        · cases h
      · have h2 : (Except.error MErr.subIdxMissing :
            Except MErr (List TxOutput)) = .error e := h
        injection h2 with h2
        exact ⟨Or.inr h2.symm, by rw [← h2]; rfl⟩
  | byAddrs hs =>
    constructor
    · intro outs' h
      simp only [subtractFeeFn] at h
      rcases hsl : subLoop fee (some hs) outs with _ | outs0
      · rw [hsl] at h
        exact Except.noConfusion h
      · rw [hsl] at h
        have h2 : (Except.ok outs0 : Except MErr (List TxOutput)) = .ok outs' := h
        injection h2 with h2
        obtain ⟨pre, oj, post, hdec, hpre, hoj, hout⟩ :=
          (subLoop_spec fee (some hs) outs).2 outs0 hsl
        have hle := subEligible_le fee (some hs) oj hoj
        exact ⟨pre, oj, post, hdec, hle, by omega, by rw [← h2, hout], hpre, hoj⟩
    · intro e h
      simp only [subtractFeeFn] at h
      rcases hsl : subLoop fee (some hs) outs with _ | outs0
      · rw [hsl] at h
        have h2 : (Except.error MErr.couldNotSubtract :
            Except MErr (List TxOutput)) = .error e := h
        injection h2 with h2
        exact ⟨Or.inl h2.symm, by rw [← h2]; rfl⟩
      · rw [hsl] at h
        exact Except.noConfusion h
  | anyOutput =>
    constructor
    · intro outs' h
      simp only [subtractFeeFn] at h
      rcases hsl : subLoop fee none outs with _ | outs0
      · rw [hsl] at h
        exact Except.noConfusion h
      · rw [hsl] at h
        have h2 : (Except.ok outs0 : Except MErr (List TxOutput)) = .ok outs' := h
        injection h2 with h2
        obtain ⟨pre, oj, post, hdec, hpre, hoj, hout⟩ :=
          (subLoop_spec fee none outs).2 outs0 hsl
        have hle := subEligible_le fee none oj hoj
        exact ⟨pre, oj, post, hdec, hle, by omega, by rw [← h2, hout], hpre, hoj⟩
    · intro e h
      simp only [subtractFeeFn] at h
      rcases hsl : subLoop fee none outs with _ | outs0
      · rw [hsl] at h
        have h2 : (Except.error MErr.couldNotSubtract :
            Except MErr (List TxOutput)) = .error e := h
        injection h2 with h2
        exact ⟨Or.inl h2.symm, by rw [← h2]; rfl⟩
      · rw [hsl] at h
        exact Except.noConfusion h

theorem claim10_subtractFee_witness :
    (∃ pre oj post, ([⟨50, 2, none⟩] : List TxOutput) = pre ++ oj :: post ∧
      (10 : Int) + oj.dust ≤ oj.value ∧
      oj.dust ≤ oj.value - 10 ∧
      ([⟨40, 2, none⟩] : List TxOutput) =
        pre ++ { oj with value := oj.value - 10 } :: post ∧
      (match SubIdx.anyOutput with
       | SubIdx.byIndex i => pre.length = i.toNat
       | SubIdx.byAddrs hs => (∀ o ∈ pre, subEligible 10 (some hs) o = false) ∧
           subEligible 10 (some hs) oj = true
       | SubIdx.anyOutput => (∀ o ∈ pre, subEligible 10 none o = false) ∧
           subEligible 10 none oj = true)) ∧
    ((MErr.couldNotSubtract = MErr.couldNotSubtract ∨
      MErr.couldNotSubtract = MErr.subIdxMissing) ∧
      mErrIsFunding MErr.couldNotSubtract = false) :=
  ⟨(claim10_subtractFee [⟨50, 2, none⟩] 10 SubIdx.anyOutput).1
      [⟨40, 2, none⟩] (by rfl),
   (claim10_subtractFee [⟨0, 5, none⟩] 10 SubIdx.anyOutput).2
      MErr.couldNotSubtract (by rfl)⟩

theorem claim10_subtractFee_counterexample :
    subtractFeeFn [⟨0, 5, none⟩] 10 SubIdx.anyOutput =
      .error MErr.couldNotSubtract ∧
    mErrIsFunding MErr.couldNotSubtract = false :=
  ⟨by rfl, by rfl⟩

/-- C6 amended: signInput hard-codes 0 as the effectiveValue argument of
the signature digest for every previous-script shape, including the
segregated-witness ones, instead of the spent coin's committed output
value (see counterexample). -/
theorem claim6_signInput_value_zero (input : TxInput) (coin : Coin)
    (p : PrevScript) (v : Int) (ver : Nat)
    (h : signInputSigArgs input coin = some (p, v, ver)) : v = 0 := by
  simp only [signInputSigArgs] at h
  repeat' split at h
  all_goals first
    | (cases h; rfl)
    | cases h

theorem claim6_signInput_value_zero_witness :
    signInputSigArgs ⟨[], []⟩ ⟨5, 1, false, PrevScript.witnessPubkeyhash 7⟩ =
      some (PrevScript.pubkeyhash 7, 0, 1) ∧ (0 : Int) = 0 :=
  ⟨by rfl, claim6_signInput_value_zero ⟨[], []⟩
    ⟨5, 1, false, PrevScript.witnessPubkeyhash 7⟩
    (PrevScript.pubkeyhash 7) 0 1 (by rfl)⟩

theorem claim6_signInput_value_counterexample :
    signInputSigArgs ⟨[], []⟩ ⟨5, 1, false, PrevScript.witnessPubkeyhash 7⟩ =
      some (PrevScript.pubkeyhash 7, 0, 1) ∧
    (⟨5, 1, false, PrevScript.witnessPubkeyhash 7⟩ : Coin).value = 5 ∧
    (0 : Int) ≠ 5 :=
  ⟨by rfl, by rfl, by decide⟩
